import Mathlib

set_option maxRecDepth 4096

namespace PWA3

/-- JS strings are modelled as lists of characters. -/
abbrev JSStr := List Char

/-- Whitespace test used by the model of `String.prototype.trim`. -/
def isWsChar (c : Char) : Bool := c == ' ' || c == '\t' || c == '\n' || c == '\r'

/-- Model of JS `String.prototype.trim`: strip whitespace from both ends. -/
def jsTrim (s : JSStr) : JSStr := ((s.dropWhile isWsChar).reverse.dropWhile isWsChar).reverse

/-- Model of `String.prototype.startsWith`: `hasPre p s` is true when `p` is a
leading segment of `s`. -/
def hasPre : JSStr → JSStr → Bool
  | [], _ => true
  | _ :: _, [] => false
  | c :: cs, d :: ds => c == d && hasPre cs ds

/-- The `local_` tag used for client-generated temporary ids. -/
def localPre : JSStr := "local_".data

/-- The `server_` tag used for server-backed ids. -/
def serverPre : JSStr := "server_".data

/-- `clientId.startsWith('local_')`. -/
def startsWithLocal (cid : JSStr) : Bool := hasPre localPre cid

/-- `clientId.startsWith('server_')`. -/
def startsWithServer (cid : JSStr) : Bool := hasPre serverPre cid

/-- Decimal digit character, as produced by JS number-to-string conversion. -/
def digitChar : Nat → Char
  | 0 => '0'
  | 1 => '1'
  | 2 => '2'
  | 3 => '3'
  | 4 => '4'
  | 5 => '5'
  | 6 => '6'
  | 7 => '7'
  | 8 => '8'
  | _ => '9'

/-- Numeric value of a decimal digit character (helper for the `parseInt` model;
characters other than `1`-`9` count as zero). -/
def digitVal (c : Char) : Nat :=
  if c == '1' then 1 else if c == '2' then 2 else if c == '3' then 3
  else if c == '4' then 4 else if c == '5' then 5 else if c == '6' then 6
  else if c == '7' then 7 else if c == '8' then 8 else if c == '9' then 9 else 0

/-- Fuel-driven decimal rendering of a natural number, most significant digit first. -/
def natToCharsAux : Nat → Nat → List Char
  | 0, _ => []
  | fuel + 1, n =>
    if n < 10 then [digitChar n] else natToCharsAux fuel (n / 10) ++ [digitChar (n % 10)]

/-- Decimal rendering of a natural number, as in the template literal `server_${id}`. -/
def natToChars (n : Nat) : JSStr := natToCharsAux (n + 1) n

/-- Left fold of decimal digits onto an accumulator (core of the `parseInt` model). -/
def parseCharsAcc : Nat → List Char → Nat
  | acc, [] => acc
  | acc, c :: cs => parseCharsAcc (acc * 10 + digitVal c) cs

/-- Decimal parse of a digit list: the model of `parseInt` on a well-formed numeral. -/
def parseChars (cs : JSStr) : Nat := parseCharsAcc 0 cs

/-- The client id stored for a server-backed record: `server_${id}`. -/
def mkServerId (n : Nat) : JSStr := serverPre ++ natToChars n

/-- Worker for the model of `String.prototype.split` with a one-character separator. -/
def jsSplitGo (sep : Char) : JSStr → JSStr → List JSStr
  | [], acc => [acc.reverse]
  | c :: cs, acc =>
    if c == sep then acc.reverse :: jsSplitGo sep cs [] else jsSplitGo sep cs (c :: acc)

/-- Model of `String.prototype.split` with a one-character separator. -/
def jsSplit (sep : Char) (s : JSStr) : List JSStr := jsSplitGo sep s []

/-- Model of `parseInt(task.clientId.split('_')[1])` from the phase-2 push loop. -/
def serverIdOf (cid : JSStr) : Nat := parseChars ((jsSplit '_' cid).getD 1 [])

/-- A client-side task record as stored in IndexedDB (object store keyed by
`clientId`).  `location` and `photo` are opaque payloads passed through
unexamined, modelled as optional handles.  The JS `dirty`/`deleted` fields may
be `undefined`, which is falsy; they are modelled as plain booleans. -/
structure Task where
  clientId : JSStr
  title : JSStr
  description : JSStr
  completed : Bool
  location : Option Nat
  photo : Option Nat
  createdAt : Nat
  updatedAt : Nat
  dirty : Bool
  deleted : Bool
deriving DecidableEq

/-- A task held in the server's in-memory `TASKS` array. -/
structure ServerTask where
  id : Nat
  title : JSStr
  description : JSStr
  completed : Bool
  location : Option Nat
  photo : Option Nat
  createdAt : Nat
  updatedAt : Nat
deriving DecidableEq

/-- The server's mutable module state: the `TASKS` array and the `NEXT_ID` counter. -/
structure ServerState where
  tasks : List ServerTask
  nextId : Nat
deriving DecidableEq

/-- Request body of `POST /api/tasks` as sent by the phase-1 push (all five
content fields are always present in the JSON). -/
structure CreateBody where
  title : JSStr
  description : JSStr
  completed : Bool
  location : Option Nat
  photo : Option Nat
deriving DecidableEq

/-- Request body of `PUT /api/tasks/:id`.  The outer `Option` is JS property
presence (`typeof x !== 'undefined'`); for `location` and `photo` the inner
`Option` is JS nullability of the payload. -/
structure PutBody where
  title : Option JSStr
  description : Option JSStr
  completed : Option Bool
  location : Option (Option Nat)
  photo : Option (Option Nat)
deriving DecidableEq

/-- The task `POST /api/tasks` builds: the current `NEXT_ID`, trimmed title
and description, and both timestamps set to now. -/
def mkCreated (now : Nat) (b : CreateBody) (s : ServerState) : ServerTask :=
  { id := s.nextId, title := jsTrim b.title, description := jsTrim b.description,
    completed := b.completed, location := b.location, photo := b.photo,
    createdAt := now, updatedAt := now }

/-- `POST /api/tasks`: reject when the title is missing or trims to empty
(400), otherwise append a task carrying the current `NEXT_ID` and bump the
counter.  Returns the created task on success, `none` on a 400 response. -/
def serverCreate (now : Nat) (b : CreateBody) (s : ServerState) :
    ServerState × Option ServerTask :=
  if jsTrim b.title = [] then (s, none)
  else ({ tasks := s.tasks ++ [mkCreated now b s], nextId := s.nextId + 1 },
        some (mkCreated now b s))

/-- Field-wise partial update performed by `PUT /api/tasks/:id` on the task it
found: present fields are assigned (title and description trimmed), absent
fields are left alone, and `updatedAt` is set to the current time. -/
def applyPut (now : Nat) (b : PutBody) (t : ServerTask) : ServerTask :=
  { t with
    title := match b.title with | some x => jsTrim x | none => t.title
    description := match b.description with | some x => jsTrim x | none => t.description
    completed := match b.completed with | some x => x | none => t.completed
    location := match b.location with | some x => x | none => t.location
    photo := match b.photo with | some x => x | none => t.photo
    updatedAt := now }

/-- Apply `f` to the first task with the given id (the record `TASKS.find`
locates and the route then mutates in place). -/
def updateFirst (id2 : Nat) (f : ServerTask → ServerTask) : List ServerTask → List ServerTask
  | [] => []
  | t :: ts => if t.id == id2 then f t :: ts else t :: updateFirst id2 f ts

/-- `PUT /api/tasks/:id`: 404 (`false`) when no task has the id, otherwise
update the found task in place and answer ok. -/
def serverPut (now : Nat) (id2 : Nat) (b : PutBody) (s : ServerState) : ServerState × Bool :=
  match s.tasks.find? (fun t => t.id == id2) with
  | some _ => ({ s with tasks := updateFirst id2 (applyPut now b) s.tasks }, true)
  | none => (s, false)

/-- `DELETE /api/tasks/:id`: filter the task out; the response is 200 with
`ok: true` whether or not anything was removed, and `deleted` reports whether
the list shrank. -/
def serverDelete (id2 : Nat) (s : ServerState) : ServerState × Bool :=
  let rest := s.tasks.filter (fun t => !(t.id == id2))
  ({ s with tasks := rest }, decide (rest.length < s.tasks.length))

/-- Insert into a list already sorted by strictly later `key` first, keeping
existing elements ahead on ties (model of the stable JS
`sort((a, b) => b.createdAt - a.createdAt)`). -/
def insertDescBy (key : α → Nat) (x : α) : List α → List α
  | [] => [x]
  | y :: ys => if key x ≤ key y then y :: insertDescBy key x ys else x :: y :: ys

/-- Sort a list by descending `key` (model of `sort((a, b) => b.createdAt - a.createdAt)`). -/
def sortDescBy (key : α → Nat) : List α → List α
  | [] => []
  | x :: xs => insertDescBy key x (sortDescBy key xs)

/-- `GET /api/tasks`: the full task list, newest first. -/
def serverList (s : ServerState) : List ServerTask :=
  sortDescBy (fun t => t.createdAt) s.tasks

/-- The two demo tasks the server starts with, and `NEXT_ID = TASKS.length + 1`.
The seed timestamps (`Date.now()` minus an hour or two) are taken as 0 here. -/
def initServer : ServerState :=
  { tasks :=
      [ { id := 1, title := "Comprar leche".data, description := "Leche entera 1L".data,
          completed := false, location := none, photo := none, createdAt := 0, updatedAt := 0 },
        { id := 2, title := "Enviar reporte".data, description := "Reporte semanal al equipo".data,
          completed := false, location := none, photo := none, createdAt := 0, updatedAt := 0 } ],
    nextId := 3 }

/-- An item posted to `POST /api/sync`.  Every field may be absent; `localId`
models `_localId` and `id` a server id. -/
structure SyncIncoming where
  localId : Option JSStr
  id : Option Nat
  title : Option JSStr
  description : Option JSStr
  completed : Option Bool
  location : Option (Option Nat)
  photo : Option (Option Nat)
  createdAt : Option Nat
deriving DecidableEq

/-- JS truthiness of an optional string (`undefined`, `null` and `''` are falsy). -/
def jsTruthyStr : Option JSStr → Bool
  | some s => !(s = [])
  | none => false

/-- JS truthiness of an optional number (`undefined`, `null` and `0` are falsy). -/
def jsTruthyNat : Option Nat → Bool
  | some n => !(n == 0)
  | none => false

/-- The create-branch guard of `POST /api/sync`: `task._localId && !task.id`. -/
def syncIsCreate (it : SyncIncoming) : Bool :=
  jsTruthyStr it.localId && !(jsTruthyNat it.id)

/-- The task the create branch of `POST /api/sync` builds, with the current
`NEXT_ID` and the JS `||` fallbacks on each field. -/
def syncNewTask (now : Nat) (s : ServerState) (it : SyncIncoming) : ServerTask :=
  { id := s.nextId,
    title := match it.title with | some t => if t = [] then "Sin título".data else t | none => "Sin título".data,
    description := match it.description with | some d => d | none => [],
    completed := match it.completed with | some c => c | none => false,
    location := match it.location with | some l => l | none => none,
    photo := match it.photo with | some p => p | none => none,
    createdAt := match it.createdAt with | some c => if c == 0 then now else c | none => now,
    updatedAt := now }

/-- Field update performed by the update branch of `POST /api/sync` (no
trimming, unlike `PUT /api/tasks/:id`). -/
def applySyncUpdate (now : Nat) (it : SyncIncoming) (t : ServerTask) : ServerTask :=
  { t with
    title := match it.title with | some x => x | none => t.title
    description := match it.description with | some x => x | none => t.description
    completed := match it.completed with | some x => x | none => t.completed
    location := match it.location with | some x => x | none => t.location
    photo := match it.photo with | some x => x | none => t.photo
    updatedAt := now }

/-- One iteration of the `incoming.forEach` loop of `POST /api/sync`. -/
def applySyncItem (now : Nat) (s : ServerState) (it : SyncIncoming) : ServerState :=
  if syncIsCreate it then
    { tasks := s.tasks ++ [syncNewTask now s it], nextId := s.nextId + 1 }
  else if jsTruthyNat it.id then
    match s.tasks.find? (fun t => t.id == it.id.getD 0) with
    | some _ => { s with tasks := updateFirst (it.id.getD 0) (applySyncUpdate now it) s.tasks }
    | none => s
  else s

/-- `POST /api/sync`: fold the incoming batch over the server state. -/
def serverSync (now : Nat) (items : List SyncIncoming) (s : ServerState) : ServerState :=
  items.foldl (applySyncItem now) s

/-- One mutating request against the task API, used to state server-wide invariants. -/
inductive ServerOp where
  | create (b : CreateBody)
  | put (id : Nat) (b : PutBody)
  | delete (id : Nat)
  | deleteAll
  | syncBatch (items : List SyncIncoming)
deriving DecidableEq

/-- State transition of a single API request. -/
def applyServerOp (now : Nat) (op : ServerOp) (s : ServerState) : ServerState :=
  match op with
  | .create b => (serverCreate now b s).1
  | .put id2 b => (serverPut now id2 b s).1
  | .delete id2 => (serverDelete id2 s).1
  | .deleteAll => { s with tasks := [] }
  | .syncBatch items => serverSync now items s

/-- Run a sequence of API requests from a starting state. -/
def runServerOps (now : Nat) (ops : List ServerOp) (s : ServerState) : ServerState :=
  ops.foldl (fun st op => applyServerOp now op st) s

/-- The id-freshness invariant of the server store: ids are pairwise distinct
and all below the `NEXT_ID` counter. -/
def serverWF (s : ServerState) : Prop :=
  (s.tasks.map (fun t => t.id)).Nodup ∧ ∀ t ∈ s.tasks, t.id < s.nextId

instance (s : ServerState) : Decidable (serverWF s) := by
  unfold serverWF; infer_instance

/-- IndexedDB `store.put`: replace the record whose key (`clientId`) matches,
or insert a fresh record. -/
def putStore (store : List Task) (t : Task) : List Task :=
  if store.any (fun u => u.clientId == t.clientId) then
    store.map (fun u => if u.clientId == t.clientId then t else u)
  else store ++ [t]

/-- IndexedDB `store.delete`: drop every record with the key. -/
def eraseStore (store : List Task) (cid : JSStr) : List Task :=
  store.filter (fun u => !(u.clientId == cid))

/-- IndexedDB `store.get`: look a record up by key. -/
def getStore (store : List Task) (cid : JSStr) : Option Task :=
  store.find? (fun u => u.clientId == cid)

/-- `getAllTasksLocal`: every stored record except the tombstoned ones
(`filter(t => !t.deleted)`), newest first.  This is the only read the app uses
for listing, rendering and the sync loops. -/
def getAllTasksLocal (store : List Task) : List Task :=
  sortDescBy (fun t => t.createdAt) (store.filter (fun t => !t.deleted))

/-- The keys of a local store are pairwise distinct (IndexedDB guarantees this
for its `keyPath`). -/
def keysNodup (store : List Task) : Prop :=
  (store.map (fun t => t.clientId)).Nodup

instance (store : List Task) : Decidable (keysNodup store) := by
  unfold keysNodup; infer_instance

/-- One remote request issued by `syncPendingTasks`, recorded for counting. -/
inductive RemoteCall where
  | create (b : CreateBody)
  | update (id : Nat) (b : PutBody)
  | delete (id : Nat)
  | list
deriving DecidableEq

/-- Message of a transport-level fetch failure. -/
def netErrMsg : JSStr := "network error".data

/-- Message of a thrown `HTTP 400` response. -/
def err400 : JSStr := "HTTP 400".data

/-- Message of a thrown `HTTP 404` response. -/
def err404 : JSStr := "HTTP 404".data

/-- Ambient data of one `syncPendingTasks` run: the logical clock and the
transport-failure schedule (`netFail i = true` makes the i-th fetch reject). -/
structure Ctx where
  netFail : Nat → Bool
  now : Nat

/-- The evolving state of one `syncPendingTasks` run: the local store, the
server, the index of the next remote call, the log of calls issued, and the
`syncedCount` accumulator. -/
structure SyncSt where
  store : List Task
  server : ServerState
  callIdx : Nat
  calls : List RemoteCall
  synced : Nat

/-- Record one remote call: log it and advance the call index.  Whether the
call's transport fails is read off the schedule at the pre-log index. -/
def logCall (st : SyncSt) (c : RemoteCall) : SyncSt :=
  { st with callIdx := st.callIdx + 1, calls := st.calls ++ [c] }

/-- The JSON body the client pushes for a task (both `POST` and `PUT` send the
five content fields). -/
def createBodyOf (t : Task) : CreateBody :=
  { title := t.title, description := t.description, completed := t.completed,
    location := t.location, photo := t.photo }

/-- The `PUT /api/tasks/:id` body of the phase-2 update: every field present. -/
def putBodyOf (t : Task) : PutBody :=
  { title := some t.title, description := some t.description,
    completed := some t.completed, location := some t.location, photo := some t.photo }

/-- The record `replaceLocalWithServer` writes: the server task's fields under
the key `server_${id}`, with `dirty: false` (the spread drops `deleted`). -/
def localOfServer (c : ServerTask) : Task :=
  { clientId := mkServerId c.id, title := c.title, description := c.description,
    completed := c.completed, location := c.location, photo := c.photo,
    createdAt := c.createdAt, updatedAt := c.updatedAt, dirty := false, deleted := false }

/-- State after a successful phase-1 create for `t`: the new server state, the
store after `replaceLocalWithServer` (temporary record deleted, server copy
stored clean), and the counter bumped. -/
def afterCreate (st1 : SyncSt) (t : Task) (srv : ServerState) (created : ServerTask) : SyncSt :=
  { st1 with server := srv,
             store := putStore (eraseStore st1.store t.clientId) (localOfServer created),
             synced := st1.synced + 1 }

/-- Phase 1 of `syncPendingTasks`: for each snapshot task with a `local_` id,
`POST /api/tasks`; on success run `replaceLocalWithServer` (delete the
temporary record, store the server copy clean) and count it; on a rejected
fetch or a non-ok response re-throw, aborting the whole run. -/
def pushCreates (ctx : Ctx) : List Task → SyncSt → SyncSt × Option JSStr
  | [], st => (st, none)
  | t :: ts, st =>
    if ctx.netFail st.callIdx then
      (logCall st (.create (createBodyOf t)), some netErrMsg)
    else
      match serverCreate ctx.now (createBodyOf t) st.server with
      | (srv, some created) =>
        pushCreates ctx ts (afterCreate (logCall st (.create (createBodyOf t))) t srv created)
      | (srv, none) => ({ logCall st (.create (createBodyOf t)) with server := srv }, some err400)

/-- State after a successful phase-2 delete for `t`: the server after the
`DELETE` route ran, the local record removed, and the counter bumped. -/
def afterDelete (st1 : SyncSt) (t : Task) : SyncSt :=
  { st1 with server := (serverDelete (serverIdOf t.clientId) st1.server).1,
             store := eraseStore st1.store t.clientId, synced := st1.synced + 1 }

/-- State after a successful phase-2 update for `t`: the new server state, the
record rewritten clean by `putTaskLocalClean`, and the counter bumped. -/
def afterUpdate (now : Nat) (st1 : SyncSt) (t : Task) (srv : ServerState) : SyncSt :=
  { st1 with server := srv,
             store := putStore st1.store { t with dirty := false, updatedAt := now },
             synced := st1.synced + 1 }

/-- Phase 2 of `syncPendingTasks`: for each snapshot task with a `server_` id,
delete on the server and purge locally when tombstoned, else `PUT` and clear
`dirty` (via `putTaskLocalClean`) when dirty, else do nothing.  A rejected
fetch or a non-ok `PUT` response re-throws; the `DELETE` route always answers
ok, after which the local record is deleted. -/
def pushUpdates (ctx : Ctx) : List Task → SyncSt → SyncSt × Option JSStr
  | [], st => (st, none)
  | t :: ts, st =>
    if t.deleted then
      if ctx.netFail st.callIdx then
        (logCall st (.delete (serverIdOf t.clientId)), some netErrMsg)
      else
        pushUpdates ctx ts (afterDelete (logCall st (.delete (serverIdOf t.clientId))) t)
    else if t.dirty then
      if ctx.netFail st.callIdx then
        (logCall st (.update (serverIdOf t.clientId) (putBodyOf t)), some netErrMsg)
      else
        match serverPut ctx.now (serverIdOf t.clientId) (putBodyOf t) st.server with
        | (srv, true) =>
          pushUpdates ctx ts
            (afterUpdate ctx.now (logCall st (.update (serverIdOf t.clientId) (putBodyOf t))) t srv)
        | (srv, false) =>
          ({ logCall st (.update (serverIdOf t.clientId) (putBodyOf t)) with server := srv },
           some err404)
    else pushUpdates ctx ts st

/-- The record the pull phase stores through `putTaskLocalClean` for a fetched
server task: the server fields under `server_${id}`, `dirty: false`, and
`updatedAt` stamped with the current time. -/
def serverToLocal (now : Nat) (cid : JSStr) (c : ServerTask) : Task :=
  { clientId := cid, title := c.title, description := c.description,
    completed := c.completed, location := c.location, photo := c.photo,
    createdAt := c.createdAt, updatedAt := now, dirty := false, deleted := false }

/-- One iteration of the pull-phase merge loop: look the raw record
`server_${id}` up; when it is absent or not dirty overwrite it with the server
copy (clean), when it is dirty keep the local record (local wins). -/
def mergeStep (now : Nat) (c : ServerTask) (store : List Task) : List Task :=
  match getStore store (mkServerId c.id) with
  | none => putStore store (serverToLocal now (mkServerId c.id) c)
  | some existing =>
    if existing.dirty then store else putStore store (serverToLocal now (mkServerId c.id) c)

/-- The merge loop of the pull phase: fold `mergeStep` over the fetched
server tasks. -/
def pullMergeLoop (now : Nat) : List ServerTask → List Task → List Task
  | [], store => store
  | c :: cs, store => pullMergeLoop now cs (mergeStep now c store)

/-- Phase 3 of `syncPendingTasks`: fetch `GET /api/tasks` and merge.  The whole
phase sits in a `try`/`catch` that only logs a warning, so a failed fetch is
swallowed and the run still returns normally. -/
def pullPhase (ctx : Ctx) (st : SyncSt) : SyncSt :=
  if ctx.netFail st.callIdx then logCall st .list
  else
    { logCall st .list with
      store := pullMergeLoop ctx.now (serverList st.server) st.store }

/-- The phase-1 snapshot: non-deleted tasks of the listing whose id starts with
`local_` (the listing itself already excludes tombstones). -/
def phase1List (store : List Task) : List Task :=
  (getAllTasksLocal store).filter (fun t => !t.deleted && startsWithLocal t.clientId)

/-- The phase-2 snapshot: tasks of the refreshed listing whose id starts with
`server_`.  Because `getAllTasksLocal` filters tombstones out, no `deleted`
task ever reaches the phase-2 loop. -/
def phase2List (store : List Task) : List Task :=
  (getAllTasksLocal store).filter (fun t => startsWithServer t.clientId)

/-- Starting state of a `syncPendingTasks` run. -/
def initSt (store : List Task) (server : ServerState) : SyncSt :=
  { store := store, server := server, callIdx := 0, calls := [], synced := 0 }

/-- Outcome of a `syncPendingTasks` run: final stores, the calls issued, the
returned `syncedCount`, and the error it threw, if any. -/
structure ReconcileOut where
  store : List Task
  server : ServerState
  calls : List RemoteCall
  synced : Nat
  err : Option JSStr
deriving DecidableEq

/-- Package a run state and an optional thrown error. -/
def mkOut (st : SyncSt) (e : Option JSStr) : ReconcileOut :=
  { store := st.store, server := st.server, calls := st.calls, synced := st.synced, err := e }

/-- The whole `syncPendingTasks` algorithm: push creates, push
updates/deletes, then pull and merge.  An error thrown in phase 1 or 2 aborts
the run and is surfaced; phase 3 swallows its own failures. -/
def reconcile (netFail : Nat → Bool) (now : Nat) (store : List Task)
    (server : ServerState) : ReconcileOut :=
  match pushCreates ⟨netFail, now⟩ (phase1List store) (initSt store server) with
  | (st1, some e) => mkOut st1 (some e)
  | (st1, none) =>
    match pushUpdates ⟨netFail, now⟩ (phase2List st1.store) st1 with
    | (st2, some e) => mkOut st2 (some e)
    | (st2, none) => mkOut (pullPhase ⟨netFail, now⟩ st2) none

/-- The list of tasks `renderTasks` draws and appends to the DOM: exactly the
listing read `getAllTasksLocal`. -/
def renderedTasks (store : List Task) : List Task := getAllTasksLocal store

theorem perm_insertDescBy (key : α → Nat) (x : α) :
    ∀ l : List α, List.Perm (insertDescBy key x l) (x :: l)
  | [] => List.Perm.refl _
  | y :: ys => by
    unfold insertDescBy
    by_cases h : key x ≤ key y
    · simp only [if_pos h]
      exact ((perm_insertDescBy key x ys).cons y).trans (List.Perm.swap x y ys)
    · simp only [if_neg h]
      exact List.Perm.refl _

theorem perm_sortDescBy (key : α → Nat) : ∀ l : List α, List.Perm (sortDescBy key l) l
  | [] => List.Perm.refl _
  | x :: xs =>
    (perm_insertDescBy key x (sortDescBy key xs)).trans ((perm_sortDescBy key xs).cons x)

theorem mem_sortDescBy (key : α → Nat) (l : List α) (x : α) :
    x ∈ sortDescBy key l ↔ x ∈ l := (perm_sortDescBy key l).mem_iff

theorem mem_getAllTasksLocal (store : List Task) (t : Task) :
    t ∈ getAllTasksLocal store ↔ t ∈ store ∧ t.deleted = false := by
  unfold getAllTasksLocal
  rw [mem_sortDescBy, List.mem_filter, Bool.not_eq_true']

/-- C8: a task with `deleted = true` is never shown in any listing: every read
through `getAllTasksLocal` — in particular the list `renderTasks` renders —
excludes tombstoned records. -/
theorem listing_excludes_tombstones (store : List Task) :
    (∀ t ∈ getAllTasksLocal store, t.deleted = false) ∧
    (∀ t ∈ renderedTasks store, t.deleted = false) := by
  constructor
  · intro t ht
    exact ((mem_getAllTasksLocal store t).mp ht).2
  · intro t ht
    exact ((mem_getAllTasksLocal store t).mp ht).2

theorem listing_excludes_tombstones_witness :
    ∀ t ∈ getAllTasksLocal
        [{ clientId := "server_1".data, title := "a".data, description := [],
           completed := false, location := none, photo := none, createdAt := 0,
           updatedAt := 0, dirty := false, deleted := true }], t.deleted = false :=
  (listing_excludes_tombstones _).1

/-- The tombstoned record used as the C5 failing input: a server-backed task
the user deleted while offline (`deleted: true, dirty: true`). -/
def tombTask : Task :=
  { clientId := "server_3".data, title := "X".data, description := [],
    completed := false, location := none, photo := none, createdAt := 1,
    updatedAt := 1, dirty := true, deleted := true }

/-- Server state for the C5 failing input: task 3 still exists remotely. -/
def tombServer : ServerState :=
  { tasks := [{ id := 3, title := "X".data, description := [], completed := false,
                location := none, photo := none, createdAt := 1, updatedAt := 1 }],
    nextId := 4 }

/-- C5: evaluation of the code at the failing input.  With a tombstoned
`server_3` record and task 3 alive remotely, a fully-online `syncPendingTasks`
run issues no `DELETE /api/tasks/3` call at all (its only remote call is the
pull-phase list fetch), leaves the tombstone in the local store, leaves task 3
on the server, and reports success — because `getAllTasksLocal` filters
`deleted` records out before the phase-2 loop ever sees them, the delete
branch is unreachable, contradicting the code's own intent (the
`deleteTaskLocal` comment says the record is marked "para sincronizar" and the
phase-2 comment announces "Eliminar si está marcada como deleted"). -/
theorem tombstone_never_deleted :
    (reconcile (fun _ => false) 100 [tombTask] tombServer).calls = [RemoteCall.list] ∧
    (reconcile (fun _ => false) 100 [tombTask] tombServer).store = [tombTask] ∧
    (reconcile (fun _ => false) 100 [tombTask] tombServer).server.tasks.map
      (fun t => t.id) = [3] ∧
    (reconcile (fun _ => false) 100 [tombTask] tombServer).err = none := by decide

/-- C1 counterexample: on an already-consistent local set (here the empty set:
no `local_` id, no dirty flag, no tombstone) `syncPendingTasks` still performs
a remote call — the unconditional pull-phase `GET /api/tasks` — so the claimed
"zero remote calls" is false, although the change count is 0 as claimed. -/
theorem consistent_state_still_fetches :
    (reconcile (fun _ => false) 0 [] initServer).synced = 0 ∧
    (reconcile (fun _ => false) 0 [] initServer).calls ≠ [] := by decide

/-- C6 counterexample: with every transport failing and an empty local store,
the only call is the phase-3 list fetch, it fails, and yet the run reports no
error — the pull-phase `try`/`catch` swallows the failure instead of
surfacing it. -/
theorem pull_fetch_failure_not_reported :
    (reconcile (fun _ => true) 0 [] initServer).calls = [RemoteCall.list] ∧
    (reconcile (fun _ => true) 0 [] initServer).err = none := by decide

/-- A dirty `server_5` record whose server-side counterpart is missing: the
C7 counterexample input. -/
def orphanTask : Task :=
  { clientId := "server_5".data, title := "Y".data, description := [],
    completed := true, location := none, photo := none, createdAt := 2,
    updatedAt := 2, dirty := true, deleted := false }

/-- C7 counterexample: pushing an update whose target is missing server-side
(`PUT` answers 404) makes `syncPendingTasks` throw `HTTP 404` and keep the
local record untouched — NotFound on update is neither success-equivalent nor
resolved by a local purge. -/
theorem update_notfound_throws :
    (reconcile (fun _ => false) 0 [orphanTask] { tasks := [], nextId := 10 }).err
      = some err404 ∧
    (reconcile (fun _ => false) 0 [orphanTask] { tasks := [], nextId := 10 }).store
      = [orphanTask] := by decide

theorem hasPre_append (p s : JSStr) : hasPre p (p ++ s) = true := by
  induction p with
  | nil => rfl
  | cons c cs ih => simp [hasPre, ih]

theorem hasPre_cons_elim {c : Char} {cs s : JSStr} (h : hasPre (c :: cs) s = true) :
    ∃ d ds, s = d :: ds ∧ c = d ∧ hasPre cs ds = true := by
  cases s with
  | nil => simp [hasPre] at h
  | cons d ds =>
    simp only [hasPre, Bool.and_eq_true, beq_iff_eq] at h
    exact ⟨d, ds, rfl, h.1, h.2⟩

theorem startsWithServer_mkServerId (n : Nat) : startsWithServer (mkServerId n) = true := by
  unfold startsWithServer mkServerId
  exact hasPre_append serverPre (natToChars n)

theorem local_ne_server {a b : JSStr} (ha : startsWithLocal a = true)
    (hb : startsWithServer b = true) : a ≠ b := by
  have ha' : hasPre ('l' :: "ocal_".data) a = true := ha
  have hb' : hasPre ('s' :: "erver_".data) b = true := hb
  obtain ⟨d, ds, rfl, hd, _⟩ := hasPre_cons_elim ha'
  obtain ⟨e, es, rfl, he, _⟩ := hasPre_cons_elim hb'
  intro h
  cases h
  subst hd
  exact absurd he.symm (by decide)

theorem startsWithLocal_mkServerId (n : Nat) : startsWithLocal (mkServerId n) = false := by
  by_contra h
  rw [Bool.not_eq_false] at h
  exact local_ne_server h (startsWithServer_mkServerId n) rfl

theorem digitVal_digitChar (n : Nat) (h : n < 10) : digitVal (digitChar n) = n := by
  interval_cases n <;> rfl

theorem digitChar_ne_underscore (n : Nat) : (digitChar n == '_') = false := by
  match n with
  | 0 | 1 | 2 | 3 | 4 | 5 | 6 | 7 | 8 => rfl
  | m + 9 => rfl

theorem parseCharsAcc_append (l1 l2 : List Char) (acc : Nat) :
    parseCharsAcc acc (l1 ++ l2) = parseCharsAcc (parseCharsAcc acc l1) l2 := by
  induction l1 generalizing acc with
  | nil => rfl
  | cons c cs ih => simp [parseCharsAcc, ih]

theorem parse_natToCharsAux (fuel : Nat) :
    ∀ n, n ≤ fuel → parseCharsAcc 0 (natToCharsAux (fuel + 1) n) = n := by
  induction fuel with
  | zero =>
    intro n hn
    interval_cases n
    rfl
  | succ f ih =>
    intro n hn
    by_cases h10 : n < 10
    · simp [natToCharsAux, h10, parseCharsAcc, digitVal_digitChar n h10]
    · have hdiv : n / 10 ≤ f := by
        have : n / 10 < n := Nat.div_lt_self (by omega) (by omega)
        omega
      have hrec := ih (n / 10) hdiv
      have hunf : natToCharsAux (f + 1 + 1) n
          = natToCharsAux (f + 1) (n / 10) ++ [digitChar (n % 10)] := by
        rw [natToCharsAux, if_neg h10]
      rw [hunf, parseCharsAcc_append, hrec]
      simp [parseCharsAcc, digitVal_digitChar (n % 10) (Nat.mod_lt n (by omega))]
      omega

theorem parseChars_natToChars (n : Nat) : parseChars (natToChars n) = n :=
  parse_natToCharsAux n n (Nat.le_refl n)

theorem natToCharsAux_no_underscore (fuel : Nat) :
    ∀ n, ∀ c ∈ natToCharsAux fuel n, (c == '_') = false := by
  induction fuel with
  | zero => intro n c hc; simp [natToCharsAux] at hc
  | succ f ih =>
    intro n c hc
    by_cases h10 : n < 10
    · simp [natToCharsAux, h10] at hc
      subst hc
      exact digitChar_ne_underscore n
    · simp only [natToCharsAux, if_neg h10, List.mem_append, List.mem_singleton] at hc
      rcases hc with hc | hc
      · exact ih (n / 10) c hc
      · subst hc
        exact digitChar_ne_underscore (n % 10)

theorem jsSplitGo_no_sep (sep : Char) :
    ∀ ds acc, (∀ c ∈ ds, (c == sep) = false) →
      jsSplitGo sep ds acc = [acc.reverse ++ ds] := by
  intro ds
  induction ds with
  | nil => intro acc _; simp [jsSplitGo]
  | cons c cs ih =>
    intro acc h
    have hc := h c (List.mem_cons_self c cs)
    simp only [jsSplitGo, hc, Bool.false_eq_true, if_false]
    rw [ih (c :: acc) (fun d hd => h d (List.mem_cons_of_mem c hd))]
    simp

theorem jsSplit_mkServerId (n : Nat) :
    jsSplit '_' (mkServerId n) = ["server".data, natToChars n] := by
  have step : jsSplit '_' (mkServerId n) = "server".data :: jsSplitGo '_' (natToChars n) [] := rfl
  rw [step, jsSplitGo_no_sep '_' (natToChars n) [] (natToCharsAux_no_underscore (n + 1) n)]
  rfl

theorem serverIdOf_mkServerId (n : Nat) : serverIdOf (mkServerId n) = n := by
  unfold serverIdOf
  rw [jsSplit_mkServerId]
  exact parseChars_natToChars n

theorem mkServerId_inj : Function.Injective mkServerId := by
  intro m n h
  have := congrArg serverIdOf h
  rwa [serverIdOf_mkServerId, serverIdOf_mkServerId] at this

theorem mem_putStore_self (store : List Task) (t : Task) : t ∈ putStore store t := by
  unfold putStore
  by_cases h : store.any (fun u => u.clientId == t.clientId)
  · rw [if_pos h]
    obtain ⟨x, hx, hkey⟩ := List.any_eq_true.mp h
    exact List.mem_map.mpr ⟨x, hx, by simp [hkey]⟩
  · rw [if_neg h]
    exact List.mem_append.mpr (Or.inr (List.mem_singleton.mpr rfl))

theorem mem_putStore_of_ne {store : List Task} {u t : Task} (hu : u ∈ store)
    (hne : u.clientId ≠ t.clientId) : u ∈ putStore store t := by
  unfold putStore
  by_cases h : store.any (fun u => u.clientId == t.clientId)
  · rw [if_pos h]
    refine List.mem_map.mpr ⟨u, hu, ?_⟩
    rw [if_neg (by simpa using hne)]
  · rw [if_neg h]
    exact List.mem_append.mpr (Or.inl hu)

theorem mem_putStore_elim {store : List Task} {t u : Task} (h : u ∈ putStore store t) :
    u = t ∨ (u ∈ store ∧ u.clientId ≠ t.clientId) := by
  unfold putStore at h
  by_cases hany : store.any (fun u => u.clientId == t.clientId)
  · rw [if_pos hany] at h
    obtain ⟨x, hx, hxu⟩ := List.mem_map.mp h
    by_cases hkey : (x.clientId == t.clientId) = true
    · rw [if_pos hkey] at hxu
      exact Or.inl hxu.symm
    · rw [if_neg hkey] at hxu
      subst hxu
      exact Or.inr ⟨hx, by simpa using hkey⟩
  · rw [if_neg hany] at h
    rcases List.mem_append.mp h with h | h
    · refine Or.inr ⟨h, ?_⟩
      have := List.any_eq_false.mp (Bool.not_eq_true _ ▸ hany) u h
      simpa using this
    · exact Or.inl (List.mem_singleton.mp h)

theorem keysNodup_putStore {store : List Task} (t : Task) (h : keysNodup store) :
    keysNodup (putStore store t) := by
  unfold keysNodup putStore
  by_cases hany : store.any (fun u => u.clientId == t.clientId)
  · rw [if_pos hany]
    have : (store.map (fun u => if u.clientId == t.clientId then t else u)).map
        (fun u => u.clientId) = store.map (fun u => u.clientId) := by
      rw [List.map_map]
      refine List.map_congr_left ?_
      intro x _
      by_cases hkey : (x.clientId == t.clientId) = true
      · simp only [Function.comp, if_pos hkey]
        exact (beq_iff_eq.mp hkey).symm
      · simp only [Function.comp, if_neg hkey]
    rw [this]
    exact h
  · rw [if_neg hany, List.map_append]
    refine List.Nodup.append h (List.nodup_singleton _) ?_
    intro a ha hb
    simp only [List.map_cons, List.map_nil, List.mem_singleton] at hb
    subst hb
    obtain ⟨x, hx, hxa⟩ := List.mem_map.mp ha
    have := List.any_eq_false.mp (Bool.not_eq_true _ ▸ hany) x hx
    simp only [beq_iff_eq] at this
    exact this (by rw [hxa])

theorem mem_eraseStore_of_ne {store : List Task} {u : Task} {cid : JSStr}
    (hu : u ∈ store) (hne : u.clientId ≠ cid) : u ∈ eraseStore store cid := by
  unfold eraseStore
  exact List.mem_filter.mpr ⟨hu, by simpa using hne⟩

theorem key_ne_of_mem_eraseStore {store : List Task} {u : Task} {cid : JSStr}
    (h : u ∈ eraseStore store cid) : u.clientId ≠ cid := by
  have := (List.mem_filter.mp h).2
  simpa using this

theorem mem_of_mem_eraseStore {store : List Task} {u : Task} {cid : JSStr}
    (h : u ∈ eraseStore store cid) : u ∈ store :=
  (List.mem_filter.mp h).1

theorem keysNodup_eraseStore {store : List Task} (cid : JSStr) (h : keysNodup store) :
    keysNodup (eraseStore store cid) :=
  List.Nodup.sublist (List.Sublist.map _ (List.filter_sublist store)) h

theorem getStore_eq_none_iff {store : List Task} {cid : JSStr} :
    getStore store cid = none ↔ ∀ u ∈ store, u.clientId ≠ cid := by
  unfold getStore
  rw [List.find?_eq_none]
  constructor
  · intro h u hu
    simpa using h u hu
  · intro h u hu
    simpa using h u hu

theorem getStore_some_spec {store : List Task} {cid : JSStr} {u : Task}
    (h : getStore store cid = some u) : u ∈ store ∧ u.clientId = cid := by
  unfold getStore at h
  exact ⟨List.mem_of_find?_eq_some h, by simpa using List.find?_some h⟩

theorem getStore_of_mem_nodup {store : List Task} {u : Task}
    (hkeys : keysNodup store) (hu : u ∈ store) : getStore store u.clientId = some u := by
  induction store with
  | nil => cases hu
  | cons v vs ih =>
    by_cases hkey : (v.clientId == u.clientId) = true
    · have hvu : v = u := by
        rcases List.mem_cons.mp hu with h | h
        · exact h.symm
        · exfalso
          have hkmem : u.clientId ∈ vs.map (fun t => t.clientId) :=
            List.mem_map.mpr ⟨u, h, rfl⟩
          have hnotin : v.clientId ∉ vs.map (fun t => t.clientId) := by
            simpa using (List.nodup_cons.mp hkeys).1
          rw [beq_iff_eq.mp hkey] at hnotin
          exact hnotin hkmem
      unfold getStore
      subst hvu
      have hbeq : (fun x : Task => x.clientId == v.clientId) v = true := beq_self_eq_true _
      exact List.find?_cons_of_pos vs hbeq
    · have hu' : u ∈ vs := by
        rcases List.mem_cons.mp hu with h | h
        · exact absurd (by rw [h]; exact beq_self_eq_true _) hkey
        · exact h
      have hrec := ih (List.nodup_cons.mp hkeys).2 hu'
      unfold getStore at hrec ⊢
      have hbeq : ¬ (fun x : Task => x.clientId == u.clientId) v = true := hkey
      rw [List.find?_cons_of_neg vs hbeq]
      exact hrec

theorem eq_of_mem_same_key {store : List Task} {a b : Task} (hkeys : keysNodup store)
    (ha : a ∈ store) (hb : b ∈ store) (hkey : a.clientId = b.clientId) : a = b := by
  have h1 := getStore_of_mem_nodup hkeys ha
  have h2 := getStore_of_mem_nodup hkeys hb
  rw [hkey] at h1
  rw [h1] at h2
  exact Option.some.inj h2

theorem keysNodup_getAllTasksLocal {store : List Task} (h : keysNodup store) :
    keysNodup (getAllTasksLocal store) := by
  unfold getAllTasksLocal
  have h1 : keysNodup (store.filter (fun t => !t.deleted)) :=
    List.Nodup.sublist (List.Sublist.map _ (List.filter_sublist store)) h
  unfold keysNodup at h1 ⊢
  exact ((perm_sortDescBy (fun t => t.createdAt) _).map _).nodup_iff.mpr h1

theorem mem_phase1List {store : List Task} {t : Task} :
    t ∈ phase1List store ↔
      t ∈ store ∧ t.deleted = false ∧ startsWithLocal t.clientId = true := by
  unfold phase1List
  rw [List.mem_filter, mem_getAllTasksLocal]
  constructor
  · rintro ⟨⟨hm, hd⟩, hb⟩
    rw [Bool.and_eq_true] at hb
    exact ⟨hm, hd, hb.2⟩
  · rintro ⟨hm, hd, hl⟩
    exact ⟨⟨hm, hd⟩, by rw [Bool.and_eq_true]; exact ⟨by simp [hd], hl⟩⟩

theorem mem_phase2List {store : List Task} {t : Task} :
    t ∈ phase2List store ↔
      t ∈ store ∧ t.deleted = false ∧ startsWithServer t.clientId = true := by
  unfold phase2List
  rw [List.mem_filter, mem_getAllTasksLocal]
  exact ⟨fun ⟨⟨hm, hd⟩, hb⟩ => ⟨hm, hd, hb⟩, fun ⟨hm, hd, hs⟩ => ⟨⟨hm, hd⟩, hs⟩⟩

theorem keysNodup_phase1List {store : List Task} (h : keysNodup store) :
    keysNodup (phase1List store) :=
  List.Nodup.sublist (List.Sublist.map _ (List.filter_sublist _))
    (keysNodup_getAllTasksLocal h)

theorem keysNodup_phase2List {store : List Task} (h : keysNodup store) :
    keysNodup (phase2List store) :=
  List.Nodup.sublist (List.Sublist.map _ (List.filter_sublist _))
    (keysNodup_getAllTasksLocal h)

theorem pullMerge_step_put (now : Nat) {store : List Task} {c : ServerTask}
    (hkeys : keysNodup store)
    (hno : ∀ t ∈ store, t.clientId = mkServerId c.id → t.dirty = false) :
    keysNodup (putStore store (serverToLocal now (mkServerId c.id) c)) ∧
    (∀ t ∈ store, t.dirty = true →
      t ∈ putStore store (serverToLocal now (mkServerId c.id) c)) ∧
    (∀ t ∈ putStore store (serverToLocal now (mkServerId c.id) c),
      t.dirty = true → t ∈ store) := by
  refine ⟨keysNodup_putStore _ hkeys, ?_, ?_⟩
  · intro t ht hd
    refine mem_putStore_of_ne ht ?_
    intro hkey
    rw [hno t ht hkey] at hd
    cases hd
  · intro t ht hd
    rcases mem_putStore_elim ht with h | h
    · rw [h] at hd
      cases hd
    · exact h.1

theorem mergeStep_eq_none {store : List Task} {now : Nat} {c : ServerTask}
    (h : getStore store (mkServerId c.id) = none) :
    mergeStep now c store = putStore store (serverToLocal now (mkServerId c.id) c) := by
  unfold mergeStep
  rw [h]

theorem mergeStep_eq_dirty {store : List Task} {now : Nat} {c : ServerTask} {e : Task}
    (h : getStore store (mkServerId c.id) = some e) (hd : e.dirty = true) :
    mergeStep now c store = store := by
  unfold mergeStep
  rw [h]
  simp [hd]

theorem mergeStep_eq_clean {store : List Task} {now : Nat} {c : ServerTask} {e : Task}
    (h : getStore store (mkServerId c.id) = some e) (hd : e.dirty = false) :
    mergeStep now c store = putStore store (serverToLocal now (mkServerId c.id) c) := by
  unfold mergeStep
  rw [h]
  simp [hd]

theorem mergeStep_cases (now : Nat) (c : ServerTask) (store : List Task)
    (hkeys : keysNodup store) :
    mergeStep now c store = store ∨
    (mergeStep now c store = putStore store (serverToLocal now (mkServerId c.id) c) ∧
      ∀ t ∈ store, t.clientId = mkServerId c.id → t.dirty = false) := by
  cases hget : getStore store (mkServerId c.id) with
  | none =>
    refine Or.inr ⟨mergeStep_eq_none hget, ?_⟩
    intro t ht hkey
    exact absurd hkey (getStore_eq_none_iff.mp hget t ht)
  | some existing =>
    obtain ⟨hex, hkey⟩ := getStore_some_spec hget
    by_cases hd : existing.dirty
    · exact Or.inl (mergeStep_eq_dirty hget hd)
    · have hd' : existing.dirty = false := Bool.not_eq_true _ ▸ hd
      refine Or.inr ⟨mergeStep_eq_clean hget hd', ?_⟩
      intro t ht hkeyt
      have := eq_of_mem_same_key hkeys ht hex (hkeyt.trans hkey.symm)
      rw [this]
      exact hd'

theorem pullMergeLoop_invariant (now : Nat) :
    ∀ (remote : List ServerTask) (store : List Task), keysNodup store →
      keysNodup (pullMergeLoop now remote store) ∧
      (∀ t ∈ store, t.dirty = true → t ∈ pullMergeLoop now remote store) ∧
      (∀ t ∈ pullMergeLoop now remote store, t.dirty = true → t ∈ store) := by
  intro remote
  induction remote with
  | nil =>
    intro store hkeys
    exact ⟨hkeys, fun t ht _ => ht, fun t ht _ => ht⟩
  | cons c cs ih =>
    intro store hkeys
    have hcons : pullMergeLoop now (c :: cs) store
        = pullMergeLoop now cs (mergeStep now c store) := rfl
    rcases mergeStep_cases now c store hkeys with hstep | ⟨hstep, hno⟩
    · rw [hcons, hstep]
      exact ih store hkeys
    · rw [hcons, hstep]
      obtain ⟨hk1, hfwd, hbwd⟩ := pullMerge_step_put now hkeys hno
      obtain ⟨hk2, hfwd2, hbwd2⟩ := ih _ hk1
      exact ⟨hk2, fun t ht hd => hfwd2 t (hfwd t ht hd) hd,
        fun t ht hd => hbwd t (hbwd2 t ht hd) hd⟩

theorem pullMergeLoop_preserves (now : Nat) :
    ∀ (cs : List ServerTask) (store : List Task) (u : Task), u ∈ store →
      (∀ c ∈ cs, mkServerId c.id ≠ u.clientId) → u ∈ pullMergeLoop now cs store := by
  intro cs
  induction cs with
  | nil => intro store u hu _; exact hu
  | cons c cs ih =>
    intro store u hu hne
    have hcons : pullMergeLoop now (c :: cs) store
        = pullMergeLoop now cs (mergeStep now c store) := rfl
    rw [hcons]
    have hnec : mkServerId c.id ≠ u.clientId := hne c (List.mem_cons_self c cs)
    have htail : ∀ d ∈ cs, mkServerId d.id ≠ u.clientId :=
      fun d hd => hne d (List.mem_cons_of_mem c hd)
    have hmem : u ∈ mergeStep now c store := by
      unfold mergeStep
      cases hget : getStore store (mkServerId c.id) with
      | none => exact mem_putStore_of_ne hu (fun h => hnec h.symm)
      | some existing =>
        by_cases hd : existing.dirty
        · simp only [hd, if_true]
          exact hu
        · simp only [hd, if_false]
          exact mem_putStore_of_ne hu (fun h => hnec h.symm)
    exact ih _ u hmem htail

theorem pullMergeLoop_insert (now : Nat) :
    ∀ (remote : List ServerTask) (store : List Task), keysNodup store →
      (remote.map (fun c => mkServerId c.id)).Nodup →
      ∀ c ∈ remote, (∀ t ∈ store, t.clientId = mkServerId c.id → t.dirty = false) →
        serverToLocal now (mkServerId c.id) c ∈ pullMergeLoop now remote store := by
  intro remote
  induction remote with
  | nil => intro store _ _ c hc; cases hc
  | cons c' cs ih =>
    intro store hkeys hrem c hc hno
    have hcons : pullMergeLoop now (c' :: cs) store
        = pullMergeLoop now cs (mergeStep now c' store) := rfl
    rw [hcons]
    rcases List.mem_cons.mp hc with hceq | hcs
    · subst hceq
      have hmem : serverToLocal now (mkServerId c.id) c ∈ mergeStep now c store := by
        cases hget : getStore store (mkServerId c.id) with
        | none =>
          rw [mergeStep_eq_none hget]
          exact mem_putStore_self store _
        | some existing =>
          obtain ⟨hex, hkey⟩ := getStore_some_spec hget
          rw [mergeStep_eq_clean hget (hno existing hex hkey)]
          exact mem_putStore_self store _
      refine pullMergeLoop_preserves now cs _ _ hmem ?_
      intro d hd heq
      have hnotin : mkServerId c.id ∉ cs.map (fun x => mkServerId x.id) := by
        simpa using (List.nodup_cons.mp hrem).1
      have heq' : mkServerId d.id = mkServerId c.id := heq
      exact hnotin (heq' ▸ List.mem_map.mpr ⟨d, hd, rfl⟩)
    · have htail := (List.nodup_cons.mp hrem).2
      rcases mergeStep_cases now c' store hkeys with hstep | ⟨hstep, _⟩
      · rw [hstep]
        exact ih store hkeys htail c hcs hno
      · rw [hstep]
        have hno1 : ∀ t ∈ putStore store (serverToLocal now (mkServerId c'.id) c'),
            t.clientId = mkServerId c.id → t.dirty = false := by
          intro t ht hkey
          rcases mem_putStore_elim ht with h | h
          · rw [h]
            rfl
          · exact hno t h.1 hkey
        exact ih _ (keysNodup_putStore _ hkeys) htail c hcs hno1

/-- C3: last-writer-wins with local bias in the pull merge loop.  A record
that is dirty when the pull phase starts passes through the merge loop
unchanged (the fetched remote copy is discarded), no merge step ever makes a
record dirty, and every fetched server task whose `server_${id}` record is
absent or clean locally ends up stored as the remote content with
`dirty = false` (the record `putTaskLocalClean` writes). -/
theorem pull_merge_local_wins (now : Nat) (remote : List ServerTask) (store : List Task)
    (hkeys : keysNodup store)
    (hremote : (remote.map (fun c => mkServerId c.id)).Nodup) :
    (∀ t ∈ store, t.dirty = true → t ∈ pullMergeLoop now remote store) ∧
    (∀ t ∈ pullMergeLoop now remote store, t.dirty = true → t ∈ store) ∧
    (∀ c ∈ remote, (∀ t ∈ store, t.clientId = mkServerId c.id → t.dirty = false) →
      serverToLocal now (mkServerId c.id) c ∈ pullMergeLoop now remote store) := by
  obtain ⟨_, hfwd, hbwd⟩ := pullMergeLoop_invariant now remote store hkeys
  exact ⟨hfwd, hbwd, fun c hc hno => pullMergeLoop_insert now remote store hkeys hremote c hc hno⟩

/-- A dirty local record used to exercise the local-wins theorem. -/
def dirtyRecW : Task :=
  { clientId := mkServerId 1, title := "local edit".data, description := [],
    completed := false, location := none, photo := none, createdAt := 3,
    updatedAt := 4, dirty := true, deleted := false }

/-- A clean local record used to exercise the local-wins theorem. -/
def cleanRecW : Task :=
  { clientId := mkServerId 2, title := "old".data, description := [],
    completed := false, location := none, photo := none, createdAt := 1,
    updatedAt := 1, dirty := false, deleted := false }

/-- Remote copy of task 1 (conflicting content). -/
def remoteW1 : ServerTask :=
  { id := 1, title := "server edit".data, description := [], completed := true,
    location := none, photo := none, createdAt := 3, updatedAt := 8 }

/-- Remote copy of task 2 (changed content). -/
def remoteW2 : ServerTask :=
  { id := 2, title := "Changed".data, description := [], completed := false,
    location := none, photo := none, createdAt := 1, updatedAt := 8 }

theorem pushCreates_cons_netfail {ctx : Ctx} {t : Task} {ts : List Task} {st : SyncSt}
    (h : ctx.netFail st.callIdx = true) :
    pushCreates ctx (t :: ts) st
      = (logCall st (.create (createBodyOf t)), some netErrMsg) := by
  simp only [pushCreates, h, if_true]

theorem pushCreates_cons_ok {ctx : Ctx} {t : Task} {ts : List Task} {st : SyncSt}
    {srv : ServerState} {created : ServerTask}
    (hnet : ctx.netFail st.callIdx = false)
    (hc : serverCreate ctx.now (createBodyOf t) st.server = (srv, some created)) :
    pushCreates ctx (t :: ts) st
      = pushCreates ctx ts (afterCreate (logCall st (.create (createBodyOf t))) t srv created) := by
  simp only [pushCreates, hnet, Bool.false_eq_true, if_false, hc]

theorem pushCreates_cons_400 {ctx : Ctx} {t : Task} {ts : List Task} {st : SyncSt}
    {srv : ServerState}
    (hnet : ctx.netFail st.callIdx = false)
    (hc : serverCreate ctx.now (createBodyOf t) st.server = (srv, none)) :
    pushCreates ctx (t :: ts) st
      = ({ logCall st (.create (createBodyOf t)) with server := srv }, some err400) := by
  simp only [pushCreates, hnet, Bool.false_eq_true, if_false, hc]

theorem pushCreates_cons_ok_inv {ctx : Ctx} {t : Task} {ts : List Task} {st st' : SyncSt}
    (h : pushCreates ctx (t :: ts) st = (st', none)) :
    ctx.netFail st.callIdx = false ∧
    ∃ srv created,
      serverCreate ctx.now (createBodyOf t) st.server = (srv, some created) ∧
      pushCreates ctx ts (afterCreate (logCall st (.create (createBodyOf t))) t srv created)
        = (st', none) := by
  by_cases hnet : ctx.netFail st.callIdx = true
  · rw [pushCreates_cons_netfail hnet] at h
    simp at h
  · have hnet' : ctx.netFail st.callIdx = false := by simpa using hnet
    cases hsc : serverCreate ctx.now (createBodyOf t) st.server with
    | mk srv res =>
      cases res with
      | some created =>
        rw [pushCreates_cons_ok hnet' hsc] at h
        exact ⟨hnet', srv, created, rfl, h⟩
      | none =>
        rw [pushCreates_cons_400 hnet' hsc] at h
        simp at h

theorem pushUpdates_cons_skip {ctx : Ctx} {t : Task} {ts : List Task} {st : SyncSt}
    (h1 : t.deleted = false) (h2 : t.dirty = false) :
    pushUpdates ctx (t :: ts) st = pushUpdates ctx ts st := by
  simp only [pushUpdates, h1, h2, Bool.false_eq_true, if_false]

theorem pushUpdates_cons_upd_netfail {ctx : Ctx} {t : Task} {ts : List Task} {st : SyncSt}
    (h1 : t.deleted = false) (h2 : t.dirty = true) (hnet : ctx.netFail st.callIdx = true) :
    pushUpdates ctx (t :: ts) st
      = (logCall st (.update (serverIdOf t.clientId) (putBodyOf t)), some netErrMsg) := by
  simp only [pushUpdates, h1, h2, hnet, Bool.false_eq_true, if_false, if_true]

theorem pushUpdates_cons_upd_ok {ctx : Ctx} {t : Task} {ts : List Task} {st : SyncSt}
    {srv : ServerState}
    (h1 : t.deleted = false) (h2 : t.dirty = true) (hnet : ctx.netFail st.callIdx = false)
    (hp : serverPut ctx.now (serverIdOf t.clientId) (putBodyOf t) st.server = (srv, true)) :
    pushUpdates ctx (t :: ts) st
      = pushUpdates ctx ts
          (afterUpdate ctx.now
            (logCall st (.update (serverIdOf t.clientId) (putBodyOf t))) t srv) := by
  simp only [pushUpdates, h1, h2, hnet, Bool.false_eq_true, if_false, if_true, hp]

theorem pushUpdates_cons_upd_404 {ctx : Ctx} {t : Task} {ts : List Task} {st : SyncSt}
    {srv : ServerState}
    (h1 : t.deleted = false) (h2 : t.dirty = true) (hnet : ctx.netFail st.callIdx = false)
    (hp : serverPut ctx.now (serverIdOf t.clientId) (putBodyOf t) st.server = (srv, false)) :
    pushUpdates ctx (t :: ts) st
      = ({ logCall st (.update (serverIdOf t.clientId) (putBodyOf t)) with server := srv },
         some err404) := by
  simp only [pushUpdates, h1, h2, hnet, Bool.false_eq_true, if_false, if_true, hp]

theorem pushUpdates_cons_inv {ctx : Ctx} {t : Task} {ts : List Task} {st st' : SyncSt}
    (hdel : t.deleted = false) (h : pushUpdates ctx (t :: ts) st = (st', none)) :
    (t.dirty = false ∧ pushUpdates ctx ts st = (st', none)) ∨
    (t.dirty = true ∧ ctx.netFail st.callIdx = false ∧
      ∃ srv, serverPut ctx.now (serverIdOf t.clientId) (putBodyOf t) st.server = (srv, true) ∧
        pushUpdates ctx ts
          (afterUpdate ctx.now
            (logCall st (.update (serverIdOf t.clientId) (putBodyOf t))) t srv)
          = (st', none)) := by
  by_cases hd : t.dirty = true
  · by_cases hnet : ctx.netFail st.callIdx = true
    · rw [pushUpdates_cons_upd_netfail hdel hd hnet] at h
      simp at h
    · have hnet' : ctx.netFail st.callIdx = false := by simpa using hnet
      cases hsp : serverPut ctx.now (serverIdOf t.clientId) (putBodyOf t) st.server with
      | mk srv ok =>
        cases ok with
        | true =>
          rw [pushUpdates_cons_upd_ok hdel hd hnet' hsp] at h
          exact Or.inr ⟨hd, hnet', srv, rfl, h⟩
        | false =>
          rw [pushUpdates_cons_upd_404 hdel hd hnet' hsp] at h
          simp at h
  · have hd' : t.dirty = false := by simpa using hd
    rw [pushUpdates_cons_skip hdel hd'] at h
    exact Or.inl ⟨hd', h⟩

theorem pullPhase_fail {ctx : Ctx} {st : SyncSt} (h : ctx.netFail st.callIdx = true) :
    pullPhase ctx st = logCall st .list := by
  simp only [pullPhase, h, if_true]

theorem pullPhase_ok {ctx : Ctx} {st : SyncSt} (h : ctx.netFail st.callIdx = false) :
    pullPhase ctx st
      = { logCall st .list with
          store := pullMergeLoop ctx.now (serverList st.server) st.store } := by
  simp only [pullPhase, h, Bool.false_eq_true, if_false]

theorem reconcile_eq_fail1 {netFail : Nat → Bool} {now : Nat} {store : List Task}
    {server : ServerState} {st1 : SyncSt} {e : JSStr}
    (h : pushCreates ⟨netFail, now⟩ (phase1List store) (initSt store server)
          = (st1, some e)) :
    reconcile netFail now store server = mkOut st1 (some e) := by
  unfold reconcile
  rw [h]

theorem reconcile_eq_fail2 {netFail : Nat → Bool} {now : Nat} {store : List Task}
    {server : ServerState} {st1 st2 : SyncSt} {e : JSStr}
    (h1 : pushCreates ⟨netFail, now⟩ (phase1List store) (initSt store server)
          = (st1, none))
    (h2 : pushUpdates ⟨netFail, now⟩ (phase2List st1.store) st1 = (st2, some e)) :
    reconcile netFail now store server = mkOut st2 (some e) := by
  unfold reconcile
  simp only [h1, h2]

theorem reconcile_eq_ok {netFail : Nat → Bool} {now : Nat} {store : List Task}
    {server : ServerState} {st1 st2 : SyncSt}
    (h1 : pushCreates ⟨netFail, now⟩ (phase1List store) (initSt store server)
          = (st1, none))
    (h2 : pushUpdates ⟨netFail, now⟩ (phase2List st1.store) st1 = (st2, none)) :
    reconcile netFail now store server = mkOut (pullPhase ⟨netFail, now⟩ st2) none := by
  unfold reconcile
  simp only [h1, h2]

theorem serverPut_found {now id2 : Nat} {b : PutBody} {s : ServerState} {t : ServerTask}
    (h : s.tasks.find? (fun u => u.id == id2) = some t) :
    serverPut now id2 b s
      = ({ s with tasks := updateFirst id2 (applyPut now b) s.tasks }, true) := by
  unfold serverPut
  rw [h]

theorem serverPut_miss {now id2 : Nat} {b : PutBody} {s : ServerState}
    (h : s.tasks.find? (fun u => u.id == id2) = none) :
    serverPut now id2 b s = (s, false) := by
  unfold serverPut
  rw [h]

theorem mem_updateFirst_of_ne {l : List ServerTask} {c : ServerTask} {id2 : Nat}
    (f : ServerTask → ServerTask) (hc : c ∈ l) (hne : c.id ≠ id2) :
    c ∈ updateFirst id2 f l := by
  induction l with
  | nil => cases hc
  | cons h t ih =>
    unfold updateFirst
    by_cases hh : (h.id == id2) = true
    · rw [if_pos hh]
      rcases List.mem_cons.mp hc with rfl | hc'
      · exact absurd (beq_iff_eq.mp hh) hne
      · exact List.mem_cons_of_mem _ hc'
    · rw [if_neg hh]
      rcases List.mem_cons.mp hc with rfl | hc'
      · exact List.mem_cons_self _ _
      · exact List.mem_cons_of_mem _ (ih hc')

theorem map_id_updateFirst (id2 : Nat) (f : ServerTask → ServerTask)
    (hf : ∀ x, (f x).id = x.id) :
    ∀ l : List ServerTask,
      (updateFirst id2 f l).map (fun c => c.id) = l.map (fun c => c.id) := by
  intro l
  induction l with
  | nil => rfl
  | cons h t ih =>
    unfold updateFirst
    by_cases hh : (h.id == id2) = true
    · rw [if_pos hh]
      simp [hf h]
    · rw [if_neg hh]
      simp [ih]

theorem serverWF_of_map_id_eq {s s' : ServerState}
    (hids : s'.tasks.map (fun c => c.id) = s.tasks.map (fun c => c.id))
    (hnext : s'.nextId = s.nextId) (h : serverWF s) : serverWF s' := by
  obtain ⟨hnd, hlt⟩ := h
  refine ⟨by rw [hids]; exact hnd, ?_⟩
  intro t ht
  have : t.id ∈ s.tasks.map (fun c => c.id) := by
    rw [← hids]
    exact List.mem_map.mpr ⟨t, ht, rfl⟩
  obtain ⟨u, hu, hid⟩ := List.mem_map.mp this
  rw [hnext, ← hid]
  exact hlt u hu

theorem serverWF_create (now : Nat) (b : CreateBody) {s : ServerState} (h : serverWF s) :
    serverWF (serverCreate now b s).1 ∧ s.nextId ≤ (serverCreate now b s).1.nextId := by
  by_cases ht : jsTrim b.title = []
  · have he : serverCreate now b s = (s, none) := by
      unfold serverCreate
      rw [if_pos ht]
    rw [he]
    exact ⟨h, Nat.le_refl _⟩
  · have he : serverCreate now b s
        = ({ tasks := s.tasks ++ [mkCreated now b s], nextId := s.nextId + 1 },
           some (mkCreated now b s)) := by
      unfold serverCreate
      rw [if_neg ht]
    rw [he]
    obtain ⟨hnd, hlt⟩ := h
    refine ⟨⟨?_, ?_⟩, Nat.le_succ _⟩
    · show (List.map (fun c => c.id) (s.tasks ++ [mkCreated now b s])).Nodup
      rw [List.map_append]
      refine List.Nodup.append hnd (List.nodup_singleton _) ?_
      intro a ha hb
      simp only [List.map_cons, List.map_nil, List.mem_singleton] at hb
      subst hb
      obtain ⟨u, hu, hid⟩ := List.mem_map.mp ha
      have hlt' := hlt u hu
      have hid' : u.id = s.nextId := hid
      omega
    · show ∀ t ∈ s.tasks ++ [mkCreated now b s], t.id < s.nextId + 1
      intro t htm
      rcases List.mem_append.mp htm with hm | hm
      · have := hlt t hm
        omega
      · rw [List.mem_singleton.mp hm]
        show s.nextId < s.nextId + 1
        omega

theorem serverWF_put (now id2 : Nat) (b : PutBody) {s : ServerState} (h : serverWF s) :
    serverWF (serverPut now id2 b s).1 ∧ (serverPut now id2 b s).1.nextId = s.nextId := by
  cases hf : s.tasks.find? (fun u => u.id == id2) with
  | none =>
    rw [serverPut_miss hf]
    exact ⟨h, rfl⟩
  | some t =>
    rw [serverPut_found hf]
    refine ⟨serverWF_of_map_id_eq ?_ ?_ h, rfl⟩
    · exact map_id_updateFirst id2 (applyPut now b) (fun x => rfl) s.tasks
    · rfl

theorem serverWF_delete {id2 : Nat} {s : ServerState} (h : serverWF s) :
    serverWF (serverDelete id2 s).1 ∧ (serverDelete id2 s).1.nextId = s.nextId := by
  obtain ⟨hnd, hlt⟩ := h
  refine ⟨⟨?_, ?_⟩, rfl⟩
  · exact List.Nodup.sublist (List.Sublist.map _ (List.filter_sublist _)) hnd
  · intro t ht
    exact hlt t (List.mem_of_mem_filter ht)

/-- Store keys the app itself writes for server-backed records are always the
canonical `server_${id}` rendering of a numeric id. -/
def canonicalServerKeys (store : List Task) : Prop :=
  ∀ u ∈ store, startsWithServer u.clientId = true → ∃ m, u.clientId = mkServerId m

theorem serverCreate_some_inv {now : Nat} {b : CreateBody} {s srv : ServerState}
    {created : ServerTask} (h : serverCreate now b s = (srv, some created)) :
    srv = { tasks := s.tasks ++ [mkCreated now b s], nextId := s.nextId + 1 } ∧
    created = mkCreated now b s := by
  unfold serverCreate at h
  by_cases ht : jsTrim b.title = []
  · rw [if_pos ht] at h
    simp at h
  · rw [if_neg ht, Prod.mk.injEq] at h
    exact ⟨h.1.symm, (Option.some.inj h.2).symm⟩

theorem serverCreate_none_inv {now : Nat} {b : CreateBody} {s srv : ServerState}
    (h : serverCreate now b s = (srv, none)) : srv = s ∧ jsTrim b.title = [] := by
  unfold serverCreate at h
  by_cases ht : jsTrim b.title = []
  · rw [if_pos ht, Prod.mk.injEq] at h
    exact ⟨h.1.symm, ht⟩
  · rw [if_neg ht, Prod.mk.injEq] at h
    simp at h

theorem serverPut_true_inv {now id2 : Nat} {b : PutBody} {s srv : ServerState}
    (h : serverPut now id2 b s = (srv, true)) :
    srv = { s with tasks := updateFirst id2 (applyPut now b) s.tasks } := by
  cases hf : s.tasks.find? (fun u => u.id == id2) with
  | none =>
    rw [serverPut_miss hf] at h
    simp at h
  | some t =>
    rw [serverPut_found hf, Prod.mk.injEq] at h
    exact h.1.symm

theorem serverPut_false_inv {now id2 : Nat} {b : PutBody} {s srv : ServerState}
    (h : serverPut now id2 b s = (srv, false)) : srv = s := by
  cases hf : s.tasks.find? (fun u => u.id == id2) with
  | none =>
    rw [serverPut_miss hf, Prod.mk.injEq] at h
    exact h.1.symm
  | some t =>
    rw [serverPut_found hf, Prod.mk.injEq] at h
    simp at h

theorem pushCreates_append (ctx : Ctx) :
    ∀ (L1 L2 : List Task) (st : SyncSt),
      pushCreates ctx (L1 ++ L2) st =
        match pushCreates ctx L1 st with
        | (st1, none) => pushCreates ctx L2 st1
        | (st1, some e) => (st1, some e) := by
  intro L1
  induction L1 with
  | nil => intro L2 st; rfl
  | cons t ts ih =>
    intro L2 st
    by_cases hnet : ctx.netFail st.callIdx = true
    · rw [show (t :: ts) ++ L2 = t :: (ts ++ L2) from rfl,
          pushCreates_cons_netfail hnet, pushCreates_cons_netfail hnet]
    · have hnet' : ctx.netFail st.callIdx = false := by simpa using hnet
      cases hsc : serverCreate ctx.now (createBodyOf t) st.server with
      | mk srv res =>
        cases res with
        | some created =>
          rw [show (t :: ts) ++ L2 = t :: (ts ++ L2) from rfl,
              pushCreates_cons_ok hnet' hsc, pushCreates_cons_ok hnet' hsc]
          exact ih L2 _
        | none =>
          rw [show (t :: ts) ++ L2 = t :: (ts ++ L2) from rfl,
              pushCreates_cons_400 hnet' hsc, pushCreates_cons_400 hnet' hsc]

theorem pushCreates_ok_calls (ctx : Ctx) :
    ∀ (L : List Task) (st st' : SyncSt), pushCreates ctx L st = (st', none) →
      st'.calls = st.calls ++ L.map (fun t => RemoteCall.create (createBodyOf t)) := by
  intro L
  induction L with
  | nil =>
    intro st st' h
    have h' : (st, (none : Option JSStr)) = (st', none) := h
    rw [Prod.mk.injEq] at h'
    rw [← h'.1]
    simp
  | cons t ts ih =>
    intro st st' h
    obtain ⟨hnet, srv, created, hsc, hrec⟩ := pushCreates_cons_ok_inv h
    have hcalls := ih _ _ hrec
    rw [hcalls]
    simp [afterCreate, logCall]

theorem pushCreates_preserves_local (ctx : Ctx) :
    ∀ (L : List Task) (st st' : SyncSt) (e : Option JSStr) (r : Task),
      pushCreates ctx L st = (st', e) →
      r ∈ st.store → startsWithLocal r.clientId = true →
      (∀ p ∈ L, p.clientId ≠ r.clientId) →
      r ∈ st'.store := by
  intro L
  induction L with
  | nil =>
    intro st st' e r h hr _ _
    have h' : (st, (none : Option JSStr)) = (st', e) := h
    rw [Prod.mk.injEq] at h'
    rw [← h'.1]
    exact hr
  | cons t ts ih =>
    intro st st' e r h hr hrl hne
    by_cases hnet : ctx.netFail st.callIdx = true
    · rw [pushCreates_cons_netfail hnet, Prod.mk.injEq] at h
      rw [← h.1]
      exact hr
    · have hnet' : ctx.netFail st.callIdx = false := by simpa using hnet
      cases hsc : serverCreate ctx.now (createBodyOf t) st.server with
      | mk srv res =>
        cases res with
        | some created =>
          rw [pushCreates_cons_ok hnet' hsc] at h
          refine ih _ _ _ r h ?_ hrl (fun p hp => hne p (List.mem_cons_of_mem t hp))
          show r ∈ putStore (eraseStore st.store t.clientId) (localOfServer created)
          have hr1 : r ∈ eraseStore st.store t.clientId :=
            mem_eraseStore_of_ne hr (fun hk => hne t (List.mem_cons_self t ts) hk.symm)
          refine mem_putStore_of_ne hr1 ?_
          exact local_ne_server hrl (startsWithServer_mkServerId created.id)
        | none =>
          rw [pushCreates_cons_400 hnet' hsc, Prod.mk.injEq] at h
          rw [← h.1]
          exact hr

theorem pushCreates_key_absent (ctx : Ctx) :
    ∀ (L : List Task) (st st' : SyncSt) (e : Option JSStr) (a : JSStr),
      pushCreates ctx L st = (st', e) →
      startsWithLocal a = true →
      (∀ u ∈ st.store, u.clientId ≠ a) →
      ∀ u ∈ st'.store, u.clientId ≠ a := by
  intro L
  induction L with
  | nil =>
    intro st st' e a h _ habs
    have h' : (st, (none : Option JSStr)) = (st', e) := h
    rw [Prod.mk.injEq] at h'
    rw [← h'.1]
    exact habs
  | cons t ts ih =>
    intro st st' e a h ha habs
    by_cases hnet : ctx.netFail st.callIdx = true
    · rw [pushCreates_cons_netfail hnet, Prod.mk.injEq] at h
      rw [← h.1]
      exact habs
    · have hnet' : ctx.netFail st.callIdx = false := by simpa using hnet
      cases hsc : serverCreate ctx.now (createBodyOf t) st.server with
      | mk srv res =>
        cases res with
        | some created =>
          rw [pushCreates_cons_ok hnet' hsc] at h
          refine ih _ _ _ a h ha ?_
          show ∀ u ∈ putStore (eraseStore st.store t.clientId) (localOfServer created),
            u.clientId ≠ a
          intro u hu
          rcases mem_putStore_elim hu with he | he
          · rw [he]
            exact fun hk =>
              local_ne_server ha (startsWithServer_mkServerId created.id) hk.symm
          · exact habs u (mem_of_mem_eraseStore he.1)
        | none =>
          rw [pushCreates_cons_400 hnet' hsc, Prod.mk.injEq] at h
          rw [← h.1]
          exact habs

theorem pushCreates_ok_state (ctx : Ctx) :
    ∀ (L : List Task) (st st' : SyncSt), pushCreates ctx L st = (st', none) →
      (∀ p ∈ L, startsWithLocal p.clientId = true) →
      st.server.nextId ≤ st'.server.nextId ∧
      (∀ c ∈ st.server.tasks, c ∈ st'.server.tasks) ∧
      (serverWF st.server → serverWF st'.server) ∧
      (keysNodup st.store → keysNodup st'.store) ∧
      (canonicalServerKeys st.store → canonicalServerKeys st'.store) ∧
      (∀ r ∈ st.store, (∃ m, r.clientId = mkServerId m ∧ m < st.server.nextId) →
        r ∈ st'.store) := by
  intro L
  induction L with
  | nil =>
    intro st st' h _
    have h' : (st, (none : Option JSStr)) = (st', none) := h
    rw [Prod.mk.injEq] at h'
    rw [← h'.1]
    exact ⟨Nat.le_refl _, fun c hc => hc, id, id, id, fun r hr _ => hr⟩
  | cons t ts ih =>
    intro st st' h hL
    obtain ⟨hnet, srv, created, hsc, hrec⟩ := pushCreates_cons_ok_inv h
    obtain ⟨hsrv, hcr⟩ := serverCreate_some_inv hsc
    have htl : startsWithLocal t.clientId = true := hL t (List.mem_cons_self t ts)
    obtain ⟨ihmono, ihtasks, ihwf, ihkeys, ihcanon, ihrec⟩ :=
      ih _ _ hrec (fun p hp => hL p (List.mem_cons_of_mem t hp))
    have hsrvnext : srv.nextId = st.server.nextId + 1 := by rw [hsrv]
    have hsrvtasks : srv.tasks = st.server.tasks ++ [mkCreated ctx.now (createBodyOf t) st.server] := by
      rw [hsrv]
    refine ⟨?_, ?_, ?_, ?_, ?_, ?_⟩
    · calc st.server.nextId ≤ srv.nextId := by omega
        _ ≤ st'.server.nextId := ihmono
    · intro c hc
      refine ihtasks c ?_
      show c ∈ srv.tasks
      rw [hsrvtasks]
      exact List.mem_append.mpr (Or.inl hc)
    · intro hwf
      refine ihwf ?_
      show serverWF srv
      have := (serverWF_create ctx.now (createBodyOf t) hwf).1
      rw [show (serverCreate ctx.now (createBodyOf t) st.server).1 = srv from
        congrArg Prod.fst hsc] at this
      exact this
    · intro hkeys
      refine ihkeys ?_
      show keysNodup (putStore (eraseStore st.store t.clientId) (localOfServer created))
      exact keysNodup_putStore _ (keysNodup_eraseStore _ hkeys)
    · intro hcanon
      refine ihcanon ?_
      show canonicalServerKeys (putStore (eraseStore st.store t.clientId) (localOfServer created))
      intro u hu hus
      rcases mem_putStore_elim hu with he | he
      · exact ⟨created.id, by rw [he]; rfl⟩
      · exact hcanon u (mem_of_mem_eraseStore he.1) hus
    · intro r hr hrm
      obtain ⟨m, hkey, hmlt⟩ := hrm
      have hrs : startsWithServer r.clientId = true := by
        rw [hkey]
        exact startsWithServer_mkServerId m
      refine ihrec r ?_ ⟨m, hkey, ?_⟩
      · show r ∈ putStore (eraseStore st.store t.clientId) (localOfServer created)
        have hr1 : r ∈ eraseStore st.store t.clientId :=
          mem_eraseStore_of_ne hr (fun hk => local_ne_server htl hrs hk.symm)
        refine mem_putStore_of_ne hr1 ?_
        rw [hkey]
        intro hcon
        have : m = created.id := mkServerId_inj hcon
        rw [hcr] at this
        have : m = st.server.nextId := this
        omega
      · show m < srv.nextId
        omega

theorem pushCreates_ok_remap (ctx : Ctx) :
    ∀ (L : List Task) (st st' : SyncSt), pushCreates ctx L st = (st', none) →
      (∀ p ∈ L, startsWithLocal p.clientId = true) →
      ∀ t ∈ L,
        (∀ u ∈ st'.store, u.clientId ≠ t.clientId) ∧
        ∃ c : ServerTask, c ∈ st'.server.tasks ∧ c.id < st'.server.nextId ∧
          c.title = jsTrim t.title ∧ c.description = jsTrim t.description ∧
          c.completed = t.completed ∧ localOfServer c ∈ st'.store := by
  intro L
  induction L with
  | nil => intro st st' _ _ t ht; cases ht
  | cons t0 ts ih =>
    intro st st' h hL t ht
    obtain ⟨hnet, srv, created, hsc, hrec⟩ := pushCreates_cons_ok_inv h
    obtain ⟨hsrv, hcr⟩ := serverCreate_some_inv hsc
    have ht0l : startsWithLocal t0.clientId = true := hL t0 (List.mem_cons_self t0 ts)
    have hLts : ∀ p ∈ ts, startsWithLocal p.clientId = true :=
      fun p hp => hL p (List.mem_cons_of_mem t0 hp)
    rcases List.mem_cons.mp ht with rfl | hts
    · constructor
      · refine pushCreates_key_absent ctx ts _ _ _ _ hrec ht0l ?_
        show ∀ u ∈ putStore (eraseStore st.store t.clientId) (localOfServer created),
          u.clientId ≠ t.clientId
        intro u hu
        rcases mem_putStore_elim hu with he | he
        · rw [he]
          exact fun hk =>
            local_ne_server ht0l (startsWithServer_mkServerId created.id) hk.symm
        · exact key_ne_of_mem_eraseStore he.1
      · obtain ⟨ihmono, ihtasks, _, _, _, ihrecst⟩ := pushCreates_ok_state ctx ts _ _ hrec hLts
        refine ⟨created, ?_, ?_, ?_, ?_, ?_, ?_⟩
        · refine ihtasks created ?_
          show created ∈ srv.tasks
          rw [hsrv, hcr]
          exact List.mem_append.mpr (Or.inr (List.mem_singleton.mpr rfl))
        · have h1 : created.id < srv.nextId := by
            rw [hsrv, hcr]
            show st.server.nextId < st.server.nextId + 1
            omega
          have h2 : (afterCreate (logCall st (RemoteCall.create (createBodyOf t)))
              t srv created).server.nextId = srv.nextId := rfl
          omega
        · rw [hcr]
          rfl
        · rw [hcr]
          rfl
        · rw [hcr]
          rfl
        · refine ihrecst (localOfServer created) ?_ ⟨created.id, rfl, ?_⟩
          · show localOfServer created
              ∈ putStore (eraseStore st.store t.clientId) (localOfServer created)
            exact mem_putStore_self _ _
          · show created.id < srv.nextId
            rw [hsrv, hcr]
            show st.server.nextId < st.server.nextId + 1
            omega
    · exact ih _ _ hrec hLts t hts

theorem pushUpdates_clean_skip (ctx : Ctx) :
    ∀ (L : List Task) (st : SyncSt),
      (∀ d ∈ L, d.deleted = false ∧ d.dirty = false) →
      pushUpdates ctx L st = (st, none) := by
  intro L
  induction L with
  | nil => intro st _; rfl
  | cons t ts ih =>
    intro st hL
    obtain ⟨h1, h2⟩ := hL t (List.mem_cons_self t ts)
    rw [pushUpdates_cons_skip h1 h2]
    exact ih st (fun d hd => hL d (List.mem_cons_of_mem t hd))

theorem pushUpdates_skip_front (ctx : Ctx) :
    ∀ (pre rest : List Task) (st : SyncSt),
      (∀ d ∈ pre, d.deleted = false ∧ d.dirty = false) →
      pushUpdates ctx (pre ++ rest) st = pushUpdates ctx rest st := by
  intro pre
  induction pre with
  | nil => intro rest st _; rfl
  | cons t ts ih =>
    intro rest st hL
    obtain ⟨h1, h2⟩ := hL t (List.mem_cons_self t ts)
    rw [show (t :: ts) ++ rest = t :: (ts ++ rest) from rfl, pushUpdates_cons_skip h1 h2]
    exact ih rest st (fun d hd => hL d (List.mem_cons_of_mem t hd))

theorem pushUpdates_preserves (ctx : Ctx) :
    ∀ (L : List Task) (st st' : SyncSt) (e : Option JSStr) (u0 : Task) (c0 : ServerTask),
      pushUpdates ctx L st = (st', e) →
      (∀ d ∈ L, d.deleted = false) →
      (∀ d ∈ L, d.dirty = true → d.clientId ≠ u0.clientId ∧ serverIdOf d.clientId ≠ c0.id) →
      u0 ∈ st.store → c0 ∈ st.server.tasks →
      u0 ∈ st'.store ∧ c0 ∈ st'.server.tasks := by
  intro L
  induction L with
  | nil =>
    intro st st' e u0 c0 h _ _ hu hc
    have h' : (st, (none : Option JSStr)) = (st', e) := h
    rw [Prod.mk.injEq] at h'
    rw [← h'.1]
    exact ⟨hu, hc⟩
  | cons t ts ih =>
    intro st st' e u0 c0 h hdel hdirty hu hc
    have hd0 : t.deleted = false := hdel t (List.mem_cons_self t ts)
    have hdel' : ∀ d ∈ ts, d.deleted = false :=
      fun d hd => hdel d (List.mem_cons_of_mem t hd)
    have hdirty' : ∀ d ∈ ts, d.dirty = true →
        d.clientId ≠ u0.clientId ∧ serverIdOf d.clientId ≠ c0.id :=
      fun d hd => hdirty d (List.mem_cons_of_mem t hd)
    by_cases hdt : t.dirty = true
    · obtain ⟨hne_u, hne_c⟩ := hdirty t (List.mem_cons_self t ts) hdt
      by_cases hnet : ctx.netFail st.callIdx = true
      · rw [pushUpdates_cons_upd_netfail hd0 hdt hnet, Prod.mk.injEq] at h
        rw [← h.1]
        exact ⟨hu, hc⟩
      · have hnet' : ctx.netFail st.callIdx = false := by simpa using hnet
        cases hsp : serverPut ctx.now (serverIdOf t.clientId) (putBodyOf t) st.server with
        | mk srv ok =>
          cases ok with
          | true =>
            rw [pushUpdates_cons_upd_ok hd0 hdt hnet' hsp] at h
            have hsrv := serverPut_true_inv hsp
            refine ih _ _ _ u0 c0 h hdel' hdirty' ?_ ?_
            · show u0 ∈ putStore st.store { t with dirty := false, updatedAt := ctx.now }
              exact mem_putStore_of_ne hu (fun hk => hne_u hk.symm)
            · show c0 ∈ srv.tasks
              rw [hsrv]
              exact mem_updateFirst_of_ne _ hc (fun hk => hne_c hk.symm)
          | false =>
            rw [pushUpdates_cons_upd_404 hd0 hdt hnet' hsp, Prod.mk.injEq] at h
            have hsrv := serverPut_false_inv hsp
            rw [← h.1]
            refine ⟨hu, ?_⟩
            show c0 ∈ srv.tasks
            rw [hsrv]
            exact hc
    · have hdt' : t.dirty = false := by simpa using hdt
      rw [pushUpdates_cons_skip hd0 hdt'] at h
      exact ih _ _ _ u0 c0 h hdel' hdirty' hu hc

theorem pushUpdates_state_inv (ctx : Ctx) :
    ∀ (L : List Task) (st st' : SyncSt) (e : Option JSStr),
      pushUpdates ctx L st = (st', e) →
      (∀ d ∈ L, d.deleted = false) →
      (∀ d ∈ L, ∃ m, d.clientId = mkServerId m) →
      (keysNodup st.store → keysNodup st'.store) ∧
      (canonicalServerKeys st.store → canonicalServerKeys st'.store) ∧
      (serverWF st.server → serverWF st'.server) := by
  intro L
  induction L with
  | nil =>
    intro st st' e h _ _
    have h' : (st, (none : Option JSStr)) = (st', e) := h
    rw [Prod.mk.injEq] at h'
    rw [← h'.1]
    exact ⟨id, id, id⟩
  | cons t ts ih =>
    intro st st' e h hdel hcan
    have hd0 : t.deleted = false := hdel t (List.mem_cons_self t ts)
    have hdel' : ∀ d ∈ ts, d.deleted = false :=
      fun d hd => hdel d (List.mem_cons_of_mem t hd)
    have hcan' : ∀ d ∈ ts, ∃ m, d.clientId = mkServerId m :=
      fun d hd => hcan d (List.mem_cons_of_mem t hd)
    by_cases hdt : t.dirty = true
    · by_cases hnet : ctx.netFail st.callIdx = true
      · rw [pushUpdates_cons_upd_netfail hd0 hdt hnet, Prod.mk.injEq] at h
        rw [← h.1]
        exact ⟨id, id, id⟩
      · have hnet' : ctx.netFail st.callIdx = false := by simpa using hnet
        cases hsp : serverPut ctx.now (serverIdOf t.clientId) (putBodyOf t) st.server with
        | mk srv ok =>
          cases ok with
          | true =>
            rw [pushUpdates_cons_upd_ok hd0 hdt hnet' hsp] at h
            obtain ⟨ihk, ihc, ihw⟩ := ih _ _ _ h hdel' hcan'
            refine ⟨?_, ?_, ?_⟩
            · intro hkeys
              refine ihk ?_
              show keysNodup (putStore st.store { t with dirty := false, updatedAt := ctx.now })
              exact keysNodup_putStore _ hkeys
            · intro hcanon
              refine ihc ?_
              show canonicalServerKeys
                (putStore st.store { t with dirty := false, updatedAt := ctx.now })
              intro u hu hus
              rcases mem_putStore_elim hu with he | he
              · obtain ⟨m, hm⟩ := hcan t (List.mem_cons_self t ts)
                exact ⟨m, by rw [he]; exact hm⟩
              · exact hcanon u he.1 hus
            · intro hwf
              refine ihw ?_
              show serverWF srv
              have := (serverWF_put ctx.now (serverIdOf t.clientId)
                (putBodyOf t) hwf).1
              rw [show (serverPut ctx.now (serverIdOf t.clientId) (putBodyOf t) st.server).1
                  = srv from congrArg Prod.fst hsp] at this
              exact this
          | false =>
            rw [pushUpdates_cons_upd_404 hd0 hdt hnet' hsp, Prod.mk.injEq] at h
            have hsrv := serverPut_false_inv hsp
            rw [← h.1]
            refine ⟨id, id, ?_⟩
            intro hwf
            show serverWF srv
            rw [hsrv]
            exact hwf
    · have hdt' : t.dirty = false := by simpa using hdt
      rw [pushUpdates_cons_skip hd0 hdt'] at h
      exact ih _ _ _ h hdel' hcan'

theorem pushUpdates_key_absent (ctx : Ctx) :
    ∀ (L : List Task) (st st' : SyncSt) (e : Option JSStr) (a : JSStr),
      pushUpdates ctx L st = (st', e) →
      (∀ d ∈ L, d.deleted = false) →
      startsWithLocal a = true →
      (∀ d ∈ L, startsWithServer d.clientId = true) →
      (∀ u ∈ st.store, u.clientId ≠ a) →
      ∀ u ∈ st'.store, u.clientId ≠ a := by
  intro L
  induction L with
  | nil =>
    intro st st' e a h _ _ _ habs
    have h' : (st, (none : Option JSStr)) = (st', e) := h
    rw [Prod.mk.injEq] at h'
    rw [← h'.1]
    exact habs
  | cons t ts ih =>
    intro st st' e a h hdel ha hsv habs
    have hd0 : t.deleted = false := hdel t (List.mem_cons_self t ts)
    have hdel' : ∀ d ∈ ts, d.deleted = false :=
      fun d hd => hdel d (List.mem_cons_of_mem t hd)
    have hsv' : ∀ d ∈ ts, startsWithServer d.clientId = true :=
      fun d hd => hsv d (List.mem_cons_of_mem t hd)
    by_cases hdt : t.dirty = true
    · by_cases hnet : ctx.netFail st.callIdx = true
      · rw [pushUpdates_cons_upd_netfail hd0 hdt hnet, Prod.mk.injEq] at h
        rw [← h.1]
        exact habs
      · have hnet' : ctx.netFail st.callIdx = false := by simpa using hnet
        cases hsp : serverPut ctx.now (serverIdOf t.clientId) (putBodyOf t) st.server with
        | mk srv ok =>
          cases ok with
          | true =>
            rw [pushUpdates_cons_upd_ok hd0 hdt hnet' hsp] at h
            refine ih _ _ _ a h hdel' ha hsv' ?_
            show ∀ u ∈ putStore st.store { t with dirty := false, updatedAt := ctx.now },
              u.clientId ≠ a
            intro u hu
            rcases mem_putStore_elim hu with he | he
            · rw [he]
              exact fun hk =>
                local_ne_server ha (hsv t (List.mem_cons_self t ts)) hk.symm
            · exact habs u he.1
          | false =>
            rw [pushUpdates_cons_upd_404 hd0 hdt hnet' hsp, Prod.mk.injEq] at h
            rw [← h.1]
            exact habs
    · have hdt' : t.dirty = false := by simpa using hdt
      rw [pushUpdates_cons_skip hd0 hdt'] at h
      exact ih _ _ _ a h hdel' ha hsv' habs

theorem mem_mergeStep_elim {now : Nat} {c : ServerTask} {store : List Task} {u : Task}
    (h : u ∈ mergeStep now c store) :
    u ∈ store ∨ u = serverToLocal now (mkServerId c.id) c := by
  cases hget : getStore store (mkServerId c.id) with
  | none =>
    rw [mergeStep_eq_none hget] at h
    rcases mem_putStore_elim h with he | he
    · exact Or.inr he
    · exact Or.inl he.1
  | some e =>
    by_cases hd : e.dirty = true
    · rw [mergeStep_eq_dirty hget hd] at h
      exact Or.inl h
    · rw [mergeStep_eq_clean hget (by simpa using hd)] at h
      rcases mem_putStore_elim h with he | he
      · exact Or.inr he
      · exact Or.inl he.1

theorem pullMergeLoop_key_absent (now : Nat) :
    ∀ (remote : List ServerTask) (store : List Task) (a : JSStr),
      startsWithLocal a = true →
      (∀ u ∈ store, u.clientId ≠ a) →
      ∀ u ∈ pullMergeLoop now remote store, u.clientId ≠ a := by
  intro remote
  induction remote with
  | nil => intro store a _ habs; exact habs
  | cons c cs ih =>
    intro store a ha habs
    have hcons : pullMergeLoop now (c :: cs) store
        = pullMergeLoop now cs (mergeStep now c store) := rfl
    rw [hcons]
    refine ih _ a ha ?_
    intro u hu
    rcases mem_mergeStep_elim hu with he | he
    · exact habs u he
    · rw [he]
      exact fun hk => local_ne_server ha (startsWithServer_mkServerId c.id) hk.symm

theorem pullPhase_synced (ctx : Ctx) (st : SyncSt) :
    (pullPhase ctx st).synced = st.synced := by
  unfold pullPhase
  by_cases h : ctx.netFail st.callIdx = true
  · rw [if_pos h]
    rfl
  · rw [if_neg h]
    rfl

theorem pullPhase_calls (ctx : Ctx) (st : SyncSt) :
    (pullPhase ctx st).calls = st.calls ++ [RemoteCall.list] := by
  unfold pullPhase
  by_cases h : ctx.netFail st.callIdx = true
  · rw [if_pos h]
    rfl
  · rw [if_neg h]
    rfl

/-- C1 (amended): on an already-consistent local set (no `local_` id, no dirty
flag, no tombstone) `syncPendingTasks` performs no remote mutation call — its
only remote call is the unconditional pull-phase `GET /api/tasks` — and
returns a zero change count with no error, whatever the transport schedule
does. -/
theorem reconcile_consistent_only_pull (netFail : Nat → Bool) (now : Nat)
    (store : List Task) (server : ServerState)
    (hclean : ∀ t ∈ store,
      startsWithLocal t.clientId = false ∧ t.dirty = false ∧ t.deleted = false) :
    (reconcile netFail now store server).err = none ∧
    (reconcile netFail now store server).synced = 0 ∧
    (reconcile netFail now store server).calls = [RemoteCall.list] := by
  have h1list : phase1List store = [] := by
    unfold phase1List
    rw [List.filter_eq_nil_iff]
    intro t ht
    have hm := (mem_getAllTasksLocal store t).mp ht
    have := (hclean t hm.1).1
    simp [this]
  have h1 : pushCreates ⟨netFail, now⟩ (phase1List store) (initSt store server)
      = (initSt store server, none) := by
    rw [h1list]
    rfl
  have h2 : pushUpdates ⟨netFail, now⟩ (phase2List (initSt store server).store)
      (initSt store server) = (initSt store server, none) := by
    refine pushUpdates_clean_skip _ _ _ ?_
    intro d hd
    have hm := mem_phase2List.mp hd
    have hm' : d ∈ store := hm.1
    exact ⟨(hclean d hm').2.2, (hclean d hm').2.1⟩
  rw [reconcile_eq_ok h1 h2]
  refine ⟨rfl, ?_, ?_⟩
  · show (pullPhase ⟨netFail, now⟩ (initSt store server)).synced = 0
    rw [pullPhase_synced]
    rfl
  · show (pullPhase ⟨netFail, now⟩ (initSt store server)).calls = [RemoteCall.list]
    rw [pullPhase_calls]
    rfl

theorem reconcile_consistent_only_pull_witness :
    (reconcile (fun _ => false) 5 [] initServer).err = none ∧
    (reconcile (fun _ => false) 5 [] initServer).synced = 0 ∧
    (reconcile (fun _ => false) 5 [] initServer).calls = [RemoteCall.list] :=
  reconcile_consistent_only_pull (fun _ => false) 5 [] initServer
    (by intro t ht; cases ht)

/-- C6 (amended): the reconciler surfaces the first error thrown by the push
phases (1 and 2), but a pull-phase failure is never surfaced: whenever both
push phases return without error, the whole call reports no error — even when
the phase-3 list fetch fails, as that failure is caught and only logged. -/
theorem reconcile_err_push_only (netFail : Nat → Bool) (now : Nat)
    (store : List Task) (server : ServerState) :
    (∀ st1 st2,
      pushCreates ⟨netFail, now⟩ (phase1List store) (initSt store server) = (st1, none) →
      pushUpdates ⟨netFail, now⟩ (phase2List st1.store) st1 = (st2, none) →
      (reconcile netFail now store server).err = none) ∧
    (∀ st1 e,
      pushCreates ⟨netFail, now⟩ (phase1List store) (initSt store server) = (st1, some e) →
      (reconcile netFail now store server).err = some e) ∧
    (∀ st1 st2 e,
      pushCreates ⟨netFail, now⟩ (phase1List store) (initSt store server) = (st1, none) →
      pushUpdates ⟨netFail, now⟩ (phase2List st1.store) st1 = (st2, some e) →
      (reconcile netFail now store server).err = some e) := by
  refine ⟨?_, ?_, ?_⟩
  · intro st1 st2 h1 h2
    rw [reconcile_eq_ok h1 h2]
    rfl
  · intro st1 e h
    rw [reconcile_eq_fail1 h]
    rfl
  · intro st1 st2 e h1 h2
    rw [reconcile_eq_fail2 h1 h2]
    rfl

theorem reconcile_err_push_only_witness :
    (reconcile (fun _ => true) 3 [] { tasks := [], nextId := 1 }).err = none :=
  (reconcile_err_push_only (fun _ => true) 3 [] { tasks := [], nextId := 1 }).1
    (initSt [] { tasks := [], nextId := 1 }) (initSt [] { tasks := [], nextId := 1 })
    rfl rfl

/-- C7 (amended): a pushed update whose target is missing server-side gets a
404, which the phase-2 loop rethrows as `HTTP 404`: the run aborts there, the
local record is not purged (the store is unchanged, the record still dirty)
and the server state is untouched.  NotFound on update is an error, not a
success-equivalent; only the delete path would treat a missing target as
success, because the `DELETE` route answers ok regardless — and that path is
unreachable (tombstones are filtered out of the phase-2 snapshot). -/
theorem update_notfound_aborts (ctx : Ctx) (pre post : List Task) (t : Task) (st : SyncSt)
    (hpre : ∀ d ∈ pre, d.deleted = false ∧ d.dirty = false)
    (ht : t.deleted = false) (htd : t.dirty = true)
    (hnet : ctx.netFail st.callIdx = false)
    (hmiss : ∀ c ∈ st.server.tasks, c.id ≠ serverIdOf t.clientId) :
    ∃ st', pushUpdates ctx (pre ++ t :: post) st = (st', some err404) ∧
      st'.store = st.store ∧ st'.server = st.server := by
  rw [pushUpdates_skip_front ctx pre (t :: post) st hpre]
  have hfind : st.server.tasks.find? (fun u => u.id == serverIdOf t.clientId) = none := by
    rw [List.find?_eq_none]
    intro c hc
    simpa using hmiss c hc
  have hsp : serverPut ctx.now (serverIdOf t.clientId) (putBodyOf t) st.server
      = (st.server, false) := serverPut_miss hfind
  rw [pushUpdates_cons_upd_404 ht htd hnet hsp]
  exact ⟨_, rfl, rfl, rfl⟩

theorem update_notfound_aborts_witness :
    ∃ st', pushUpdates ⟨fun _ => false, 0⟩ ([] ++ orphanTask :: [])
        (initSt [orphanTask] { tasks := [], nextId := 10 }) = (st', some err404) ∧
      st'.store = (initSt [orphanTask] { tasks := [], nextId := 10 }).store ∧
      st'.server = (initSt [orphanTask] { tasks := [], nextId := 10 }).server :=
  update_notfound_aborts ⟨fun _ => false, 0⟩ [] [] orphanTask
    (initSt [orphanTask] { tasks := [], nextId := 10 })
    (by intro d hd; cases hd) (by decide) (by decide) rfl
    (by intro c hc; cases hc)

/-- C4: fail-fast in phase 1.  If the creates before `A` succeed and the
create call for `A` fails (transport failure or a 400 for an empty trimmed
title), the whole `syncPendingTasks` call aborts surfacing that error, the
create calls issued are exactly those for the tasks up to and including `A`
(none after `A` in iteration order is attempted), and `A`'s record is still in
the local store unchanged — still its `local_` id, still exactly the dirty
record it was. -/
theorem phase1_failfast (netFail : Nat → Bool) (now : Nat) (store : List Task)
    (server : ServerState) (pre post : List Task) (A : Task) (st1 : SyncSt)
    (hsplit : phase1List store = pre ++ A :: post)
    (hpre : pushCreates ⟨netFail, now⟩ pre (initSt store server) = (st1, none))
    (hfail : netFail st1.callIdx = true ∨ jsTrim A.title = [])
    (hA : A ∈ store) (hAl : startsWithLocal A.clientId = true)
    (hApre : ∀ p ∈ pre, p.clientId ≠ A.clientId) :
    ∃ e, (reconcile netFail now store server).err = some e ∧
      (reconcile netFail now store server).calls
        = (pre ++ [A]).map (fun p => RemoteCall.create (createBodyOf p)) ∧
      A ∈ (reconcile netFail now store server).store := by
  have hsplitrun : ∀ st2 e2,
      pushCreates ⟨netFail, now⟩ (A :: post) st1 = (st2, some e2) →
      pushCreates ⟨netFail, now⟩ (phase1List store) (initSt store server)
        = (st2, some e2) := by
    intro st2 e2 hr
    rw [hsplit, pushCreates_append, hpre]
    exact hr
  have hcalls1 : st1.calls = pre.map (fun p => RemoteCall.create (createBodyOf p)) := by
    have hc := pushCreates_ok_calls _ pre _ _ hpre
    rw [hc]
    simp [initSt]
  have hmemA : A ∈ st1.store :=
    pushCreates_preserves_local _ pre _ _ _ A hpre hA hAl hApre
  by_cases hnet : netFail st1.callIdx = true
  · have hstep : pushCreates ⟨netFail, now⟩ (A :: post) st1
        = (logCall st1 (.create (createBodyOf A)), some netErrMsg) :=
      pushCreates_cons_netfail
        (show (⟨netFail, now⟩ : Ctx).netFail st1.callIdx = true from hnet)
    rw [reconcile_eq_fail1 (hsplitrun _ _ hstep)]
    refine ⟨netErrMsg, rfl, ?_, hmemA⟩
    show st1.calls ++ [RemoteCall.create (createBodyOf A)] = _
    rw [hcalls1]
    simp
  · have h400 : jsTrim A.title = [] := by
      rcases hfail with h | h
      · exact absurd h hnet
      · exact h
    have hnet' : (⟨netFail, now⟩ : Ctx).netFail st1.callIdx = false := by
      simpa using hnet
    have hsc : serverCreate now (createBodyOf A) st1.server = (st1.server, none) := by
      unfold serverCreate
      rw [if_pos (show jsTrim (createBodyOf A).title = [] from h400)]
    have hstep : pushCreates ⟨netFail, now⟩ (A :: post) st1
        = ({ logCall st1 (.create (createBodyOf A)) with server := st1.server },
           some err400) :=
      pushCreates_cons_400 hnet' hsc
    rw [reconcile_eq_fail1 (hsplitrun _ _ hstep)]
    refine ⟨err400, rfl, ?_, hmemA⟩
    show st1.calls ++ [RemoteCall.create (createBodyOf A)] = _
    rw [hcalls1]
    simp

/-- The offline-created task used to exercise the fail-fast theorem. -/
def c4task : Task :=
  { clientId := "local_a1".data, title := "T".data, description := [],
    completed := false, location := none, photo := none, createdAt := 9,
    updatedAt := 9, dirty := true, deleted := false }

theorem phase1_failfast_witness :
    ∃ e, (reconcile (fun _ => true) 0 [c4task] initServer).err = some e ∧
      (reconcile (fun _ => true) 0 [c4task] initServer).calls
        = ([] ++ [c4task]).map (fun p => RemoteCall.create (createBodyOf p)) ∧
      c4task ∈ (reconcile (fun _ => true) 0 [c4task] initServer).store :=
  phase1_failfast (fun _ => true) 0 [c4task] initServer [] [] c4task
    (initSt [c4task] initServer) (by decide) rfl (Or.inl rfl) (by decide) (by decide)
    (by intro p hp; cases hp)

/-- C2: identifier remap.  For a task with a `local_` id and no tombstone in a
well-formed starting state (unique store keys, canonical `server_` keys,
well-formed server ids), if `syncPendingTasks` finishes without error — so in
particular its create call succeeded — the temporary `local_` record is gone
from the final store and the final store holds a record under a server-issued
`server_${id}` key with `dirty = false` carrying the pushed content (title and
description as trimmed by the server, same completed flag). -/
theorem create_remap (netFail : Nat → Bool) (now : Nat) (store : List Task)
    (server : ServerState) (t : Task)
    (hmem : t ∈ store) (hloc : startsWithLocal t.clientId = true)
    (hnd : t.deleted = false) (hkeys : keysNodup store) (hwf : serverWF server)
    (hcanon : canonicalServerKeys store)
    (hok : (reconcile netFail now store server).err = none) :
    (∀ u ∈ (reconcile netFail now store server).store, u.clientId ≠ t.clientId) ∧
    ∃ u ∈ (reconcile netFail now store server).store,
      (∃ m, u.clientId = mkServerId m) ∧ u.dirty = false ∧
      u.title = jsTrim t.title ∧ u.description = jsTrim t.description ∧
      u.completed = t.completed := by
  cases h1 : pushCreates ⟨netFail, now⟩ (phase1List store) (initSt store server) with
  | mk st1 e1 =>
    cases e1 with
    | some e =>
      rw [reconcile_eq_fail1 h1] at hok
      simp [mkOut] at hok
    | none =>
      cases h2 : pushUpdates ⟨netFail, now⟩ (phase2List st1.store) st1 with
      | mk st2 e2 =>
        cases e2 with
        | some e =>
          rw [reconcile_eq_fail2 h1 h2] at hok
          simp [mkOut] at hok
        | none =>
          rw [reconcile_eq_ok h1 h2]
          have hLloc : ∀ p ∈ phase1List store, startsWithLocal p.clientId = true :=
            fun p hp => (mem_phase1List.mp hp).2.2
          have htP1 : t ∈ phase1List store := mem_phase1List.mpr ⟨hmem, hnd, hloc⟩
          obtain ⟨habs1, c, hcmem1, hclt1, hct, hcd, hcc, hloc1⟩ :=
            pushCreates_ok_remap _ _ _ _ h1 hLloc t htP1
          obtain ⟨hmono1, htasks1, hwf1, hkeys1, hcanon1, _⟩ :=
            pushCreates_ok_state _ _ _ _ h1 hLloc
          have hkeys1' : keysNodup st1.store := hkeys1 hkeys
          have hwf1' : serverWF st1.server := hwf1 hwf
          have hcanon1' : canonicalServerKeys st1.store := hcanon1 hcanon
          have hdel2 : ∀ d ∈ phase2List st1.store, d.deleted = false :=
            fun d hd => (mem_phase2List.mp hd).2.1
          have hsv2 : ∀ d ∈ phase2List st1.store, startsWithServer d.clientId = true :=
            fun d hd => (mem_phase2List.mp hd).2.2
          have hcan2 : ∀ d ∈ phase2List st1.store, ∃ m, d.clientId = mkServerId m :=
            fun d hd =>
              hcanon1' d (mem_phase2List.mp hd).1 (mem_phase2List.mp hd).2.2
          have hu0key : (localOfServer c).clientId = mkServerId c.id := rfl
          have hdirty2 : ∀ d ∈ phase2List st1.store, d.dirty = true →
              d.clientId ≠ (localOfServer c).clientId ∧
              serverIdOf d.clientId ≠ c.id := by
            intro d hd hdd
            obtain ⟨hdmem, hddel, hdsv⟩ := mem_phase2List.mp hd
            have hne : d.clientId ≠ (localOfServer c).clientId := by
              intro hkeq
              have hdu : d = localOfServer c :=
                eq_of_mem_same_key hkeys1' hdmem hloc1 hkeq
              rw [hdu] at hdd
              simp [localOfServer] at hdd
            refine ⟨hne, ?_⟩
            obtain ⟨m, hm⟩ := hcan2 d hd
            rw [hm, serverIdOf_mkServerId]
            intro hmeq
            exact hne (by rw [hm, hmeq, ← hu0key])
          obtain ⟨hu0mem2, hcmem2⟩ :=
            pushUpdates_preserves _ _ _ _ _ (localOfServer c) c h2 hdel2 hdirty2
              hloc1 hcmem1
          obtain ⟨hkeys2, hcanon2, hwf2⟩ :=
            pushUpdates_state_inv _ _ _ _ _ h2 hdel2 hcan2
          have hkeys2' : keysNodup st2.store := hkeys2 hkeys1'
          have hwf2' : serverWF st2.server := hwf2 hwf1'
          have habs2 : ∀ u ∈ st2.store, u.clientId ≠ t.clientId :=
            pushUpdates_key_absent _ _ _ _ _ _ h2 hdel2 hloc hsv2 habs1
          constructor
          · show ∀ u ∈ (mkOut (pullPhase ⟨netFail, now⟩ st2) none).store,
              u.clientId ≠ t.clientId
            by_cases hnetp : netFail st2.callIdx = true
            · rw [pullPhase_fail
                (show (⟨netFail, now⟩ : Ctx).netFail st2.callIdx = true from hnetp)]
              exact habs2
            · rw [pullPhase_ok
                (show (⟨netFail, now⟩ : Ctx).netFail st2.callIdx = false from by
                  simpa using hnetp)]
              show ∀ u ∈ pullMergeLoop now (serverList st2.server) st2.store,
                u.clientId ≠ t.clientId
              exact pullMergeLoop_key_absent now _ _ _ hloc habs2
          · by_cases hnetp : netFail st2.callIdx = true
            · rw [pullPhase_fail
                (show (⟨netFail, now⟩ : Ctx).netFail st2.callIdx = true from hnetp)]
              exact ⟨localOfServer c, hu0mem2, ⟨c.id, rfl⟩, rfl, hct, hcd, hcc⟩
            · rw [pullPhase_ok
                (show (⟨netFail, now⟩ : Ctx).netFail st2.callIdx = false from by
                  simpa using hnetp)]
              have hrem : c ∈ serverList st2.server :=
                (mem_sortDescBy _ _ _).mpr hcmem2
              have hids : ((serverList st2.server).map (fun x => x.id)).Nodup := by
                have hperm := perm_sortDescBy (fun x : ServerTask => x.createdAt)
                  st2.server.tasks
                exact (hperm.map _).nodup_iff.mpr hwf2'.1
              have hremkeys :
                  ((serverList st2.server).map (fun x => mkServerId x.id)).Nodup := by
                have hmm : ((serverList st2.server).map (fun x => x.id)).map mkServerId
                    = (serverList st2.server).map (fun x => mkServerId x.id) := by
                  rw [List.map_map]
                  rfl
                rw [← hmm]
                exact List.Nodup.map mkServerId_inj hids
              have hno : ∀ x ∈ st2.store, x.clientId = mkServerId c.id →
                  x.dirty = false := by
                intro x hx hxkey
                have hxu : x = localOfServer c :=
                  eq_of_mem_same_key hkeys2' hx hu0mem2 (by rw [hxkey, hu0key])
                rw [hxu]
                rfl
              have hins := pullMergeLoop_insert now (serverList st2.server) st2.store
                hkeys2' hremkeys c hrem hno
              exact ⟨serverToLocal now (mkServerId c.id) c, hins,
                ⟨c.id, rfl⟩, rfl, hct, hcd, hcc⟩

/-- The offline-created task used to exercise the identifier-remap theorem. -/
def c2task : Task :=
  { clientId := "local_x1".data, title := "Buy milk".data, description := "d".data,
    completed := false, location := none, photo := none, createdAt := 5,
    updatedAt := 5, dirty := true, deleted := false }

theorem create_remap_witness :
    (∀ u ∈ (reconcile (fun _ => false) 50 [c2task] { tasks := [], nextId := 7 }).store,
      u.clientId ≠ c2task.clientId) ∧
    ∃ u ∈ (reconcile (fun _ => false) 50 [c2task] { tasks := [], nextId := 7 }).store,
      (∃ m, u.clientId = mkServerId m) ∧ u.dirty = false ∧
      u.title = jsTrim c2task.title ∧ u.description = jsTrim c2task.description ∧
      u.completed = c2task.completed :=
  create_remap (fun _ => false) 50 [c2task] { tasks := [], nextId := 7 } c2task
    (by decide) (by decide) (by decide) (by decide) (by decide)
    (by
      intro u hu hs
      rw [List.mem_singleton] at hu
      subst hu
      exact absurd hs (by decide))
    (by decide)

theorem updateFirst_congr_found {l : List ServerTask} {id2 : Nat} {t : ServerTask}
    (f : ServerTask → ServerTask) (h : l.find? (fun u => u.id == id2) = some t) :
    updateFirst id2 f l = updateFirst id2 (fun _ => f t) l := by
  induction l with
  | nil => rfl
  | cons a as ih =>
    by_cases ha : (a.id == id2) = true
    · have hba : (fun u : ServerTask => u.id == id2) a = true := ha
      rw [List.find?_cons_of_pos as hba] at h
      have hat : a = t := Option.some.inj h
      unfold updateFirst
      rw [if_pos ha, if_pos ha, hat]
    · have hba : ¬ (fun u : ServerTask => u.id == id2) a = true := ha
      rw [List.find?_cons_of_neg as hba] at h
      unfold updateFirst
      rw [if_neg ha, if_neg ha, ih h]

/-- C10: `PUT /api/tasks/:id` on an existing task is a partial update with a
frame property.  The route answers ok, only the first task with the id is
rewritten (every other task is kept), and on that task each of title,
description, completed, location, photo changes exactly when the field is
present in the body (title and description are trimmed, the others copied),
absent fields keep their prior values, `id` and `createdAt` are never
modified, and `updatedAt` is always set to the current time. -/
theorem serverPut_partial_update (now id2 : Nat) (b : PutBody) (s : ServerState)
    (t : ServerTask) (hfind : s.tasks.find? (fun u => u.id == id2) = some t) :
    (serverPut now id2 b s).2 = true ∧
    (serverPut now id2 b s).1.tasks
      = updateFirst id2 (fun _ => applyPut now b t) s.tasks ∧
    (serverPut now id2 b s).1.nextId = s.nextId ∧
    (∀ u ∈ s.tasks, u.id ≠ id2 → u ∈ (serverPut now id2 b s).1.tasks) ∧
    (applyPut now b t).id = t.id ∧ (applyPut now b t).createdAt = t.createdAt ∧
    (applyPut now b t).updatedAt = now ∧
    (b.title = none → (applyPut now b t).title = t.title) ∧
    (∀ x, b.title = some x → (applyPut now b t).title = jsTrim x) ∧
    (b.description = none → (applyPut now b t).description = t.description) ∧
    (∀ x, b.description = some x → (applyPut now b t).description = jsTrim x) ∧
    (b.completed = none → (applyPut now b t).completed = t.completed) ∧
    (∀ x, b.completed = some x → (applyPut now b t).completed = x) ∧
    (b.location = none → (applyPut now b t).location = t.location) ∧
    (∀ x, b.location = some x → (applyPut now b t).location = x) ∧
    (b.photo = none → (applyPut now b t).photo = t.photo) ∧
    (∀ x, b.photo = some x → (applyPut now b t).photo = x) := by
  rw [serverPut_found hfind]
  refine ⟨rfl, ?_, rfl, ?_, rfl, rfl, rfl, ?_, ?_, ?_, ?_, ?_, ?_, ?_, ?_, ?_, ?_⟩
  · show updateFirst id2 (applyPut now b) s.tasks
      = updateFirst id2 (fun _ => applyPut now b t) s.tasks
    exact updateFirst_congr_found (applyPut now b) hfind
  · intro u hu hne
    show u ∈ updateFirst id2 (applyPut now b) s.tasks
    exact mem_updateFirst_of_ne _ hu hne
  · intro h
    simp [applyPut, h]
  · intro x hx
    simp [applyPut, hx]
  · intro h
    simp [applyPut, h]
  · intro x hx
    simp [applyPut, hx]
  · intro h
    simp [applyPut, h]
  · intro x hx
    simp [applyPut, hx]
  · intro h
    simp [applyPut, h]
  · intro x hx
    simp [applyPut, hx]
  · intro h
    simp [applyPut, h]
  · intro x hx
    simp [applyPut, hx]

/-- The first seeded server task, as matched by a `PUT /api/tasks/1`. -/
def initTask1 : ServerTask :=
  { id := 1, title := "Comprar leche".data, description := "Leche entera 1L".data,
    completed := false, location := none, photo := none, createdAt := 0, updatedAt := 0 }

/-- The body used to exercise the partial-update theorem: only `title` present. -/
def c10body : PutBody :=
  { title := some " New title ".data, description := none, completed := none,
    location := none, photo := none }

theorem serverPut_partial_update_witness :
    (serverPut 77 1 c10body initServer).2 = true ∧
    (serverPut 77 1 c10body initServer).1.tasks
      = updateFirst 1 (fun _ => applyPut 77 c10body initTask1) initServer.tasks ∧
    (serverPut 77 1 c10body initServer).1.nextId = initServer.nextId ∧
    (∀ u ∈ initServer.tasks, u.id ≠ 1 → u ∈ (serverPut 77 1 c10body initServer).1.tasks) ∧
    (applyPut 77 c10body initTask1).id = initTask1.id ∧
    (applyPut 77 c10body initTask1).createdAt = initTask1.createdAt ∧
    (applyPut 77 c10body initTask1).updatedAt = 77 ∧
    (c10body.title = none → (applyPut 77 c10body initTask1).title = initTask1.title) ∧
    (∀ x, c10body.title = some x → (applyPut 77 c10body initTask1).title = jsTrim x) ∧
    (c10body.description = none →
      (applyPut 77 c10body initTask1).description = initTask1.description) ∧
    (∀ x, c10body.description = some x →
      (applyPut 77 c10body initTask1).description = jsTrim x) ∧
    (c10body.completed = none →
      (applyPut 77 c10body initTask1).completed = initTask1.completed) ∧
    (∀ x, c10body.completed = some x → (applyPut 77 c10body initTask1).completed = x) ∧
    (c10body.location = none →
      (applyPut 77 c10body initTask1).location = initTask1.location) ∧
    (∀ x, c10body.location = some x → (applyPut 77 c10body initTask1).location = x) ∧
    (c10body.photo = none → (applyPut 77 c10body initTask1).photo = initTask1.photo) ∧
    (∀ x, c10body.photo = some x → (applyPut 77 c10body initTask1).photo = x) :=
  serverPut_partial_update 77 1 c10body initServer initTask1 (by decide)

theorem serverWF_deleteAll {s : ServerState} :
    serverWF { s with tasks := [] } :=
  ⟨List.nodup_nil, fun t ht => absurd ht (List.not_mem_nil t)⟩

theorem serverWF_syncItem {now : Nat} {s : ServerState} {it : SyncIncoming}
    (h : serverWF s) : serverWF (applySyncItem now s it) := by
  unfold applySyncItem
  by_cases hc : syncIsCreate it = true
  · rw [if_pos hc]
    obtain ⟨hnd, hlt⟩ := h
    constructor
    · show (List.map (fun c => c.id) (s.tasks ++ [syncNewTask now s it])).Nodup
      rw [List.map_append]
      refine List.Nodup.append hnd (List.nodup_singleton _) ?_
      intro a ha hb
      simp only [List.map_cons, List.map_nil, List.mem_singleton] at hb
      subst hb
      obtain ⟨u, hu, hid⟩ := List.mem_map.mp ha
      have hlt' := hlt u hu
      have hid' : u.id = s.nextId := hid
      omega
    · show ∀ t ∈ s.tasks ++ [syncNewTask now s it], t.id < s.nextId + 1
      intro t htm
      rcases List.mem_append.mp htm with hm | hm
      · have := hlt t hm
        omega
      · rw [List.mem_singleton.mp hm]
        show s.nextId < s.nextId + 1
        omega
  · rw [if_neg hc]
    by_cases hid : jsTruthyNat it.id = true
    · rw [if_pos hid]
      cases hf : s.tasks.find? (fun t => t.id == it.id.getD 0) with
      | none => exact h
      | some t =>
        refine serverWF_of_map_id_eq ?_ ?_ h
        · exact map_id_updateFirst _ (applySyncUpdate now it) (fun x => rfl) s.tasks
        · rfl
    · rw [if_neg hid]
      exact h

theorem serverWF_syncBatch (now : Nat) :
    ∀ (items : List SyncIncoming) (s : ServerState), serverWF s →
      serverWF (serverSync now items s)
  | [], _, h => h
  | _ :: its, _, h => serverWF_syncBatch now its _ (serverWF_syncItem h)

theorem serverWF_op (now : Nat) (op : ServerOp) (s : ServerState) (h : serverWF s) :
    serverWF (applyServerOp now op s) := by
  cases op with
  | create b => exact (serverWF_create now b h).1
  | put id2 b => exact (serverWF_put now id2 b h).1
  | delete id2 => exact (serverWF_delete h).1
  | deleteAll => exact serverWF_deleteAll
  | syncBatch items => exact serverWF_syncBatch now items s h

theorem serverWF_run (now : Nat) :
    ∀ (ops : List ServerOp) (s : ServerState), serverWF s →
      serverWF (runServerOps now ops s)
  | [], _, h => h
  | op :: ops, s, h => serverWF_run now ops _ (serverWF_op now op s h)

theorem nextId_mono_syncItem (now : Nat) (s : ServerState) (it : SyncIncoming) :
    s.nextId ≤ (applySyncItem now s it).nextId := by
  unfold applySyncItem
  by_cases hc : syncIsCreate it = true
  · rw [if_pos hc]
    exact Nat.le_succ _
  · rw [if_neg hc]
    by_cases hid : jsTruthyNat it.id = true
    · rw [if_pos hid]
      cases hf : s.tasks.find? (fun t => t.id == it.id.getD 0) with
      | none => exact Nat.le_refl _
      | some t => exact Nat.le_refl _
    · rw [if_neg hid]

theorem nextId_mono_syncBatch (now : Nat) :
    ∀ (items : List SyncIncoming) (s : ServerState),
      s.nextId ≤ (serverSync now items s).nextId
  | [], _ => Nat.le_refl _
  | it :: its, s =>
    Nat.le_trans (nextId_mono_syncItem now s it)
      (nextId_mono_syncBatch now its (applySyncItem now s it))

theorem nextId_mono_op (now : Nat) (op : ServerOp) (s : ServerState) :
    s.nextId ≤ (applyServerOp now op s).nextId := by
  cases op with
  | create b =>
    show s.nextId ≤ (serverCreate now b s).1.nextId
    by_cases ht : jsTrim b.title = []
    · have he : serverCreate now b s = (s, none) := by
        unfold serverCreate
        rw [if_pos ht]
      rw [he]
    · have he : serverCreate now b s
          = ({ tasks := s.tasks ++ [mkCreated now b s], nextId := s.nextId + 1 },
             some (mkCreated now b s)) := by
        unfold serverCreate
        rw [if_neg ht]
      rw [he]
      exact Nat.le_succ _
  | put id2 b =>
    show s.nextId ≤ (serverPut now id2 b s).1.nextId
    cases hf : s.tasks.find? (fun u => u.id == id2) with
    | none => rw [serverPut_miss hf]
    | some t => rw [serverPut_found hf]
  | delete id2 => exact Nat.le_refl _
  | deleteAll => exact Nat.le_refl _
  | syncBatch items => exact nextId_mono_syncBatch now items s

/-- C9: server-assigned ids are pairwise distinct and strictly increasing.
`serverWF` (ids pairwise distinct and below `NEXT_ID`) holds for the seeded
state, is preserved by every API request, and so holds along any run; the
create paths — `POST /api/tasks` and the create branch of `POST /api/sync` —
assign exactly the current `NEXT_ID` and then increment it, so the new id
differs from every existing id, and since `NEXT_ID` never decreases across
requests, later creates always receive strictly larger ids. -/
theorem server_ids_fresh (now : Nat) :
    serverWF initServer ∧
    (∀ op s, serverWF s → serverWF (applyServerOp now op s)) ∧
    (∀ ops s, serverWF s → serverWF (runServerOps now ops s)) ∧
    (∀ op s, s.nextId ≤ (applyServerOp now op s).nextId) ∧
    (∀ b s t s', serverCreate now b s = (s', some t) →
      t.id = s.nextId ∧ s'.nextId = s.nextId + 1 ∧
      (serverWF s → ∀ u ∈ s.tasks, u.id ≠ t.id)) ∧
    (∀ s it, syncIsCreate it = true →
      applySyncItem now s it
        = { tasks := s.tasks ++ [syncNewTask now s it], nextId := s.nextId + 1 } ∧
      (syncNewTask now s it).id = s.nextId ∧
      (serverWF s → ∀ u ∈ s.tasks, u.id ≠ (syncNewTask now s it).id)) := by
  refine ⟨by decide, fun op s h => serverWF_op now op s h,
    fun ops s h => serverWF_run now ops s h, fun op s => nextId_mono_op now op s,
    ?_, ?_⟩
  · intro b s t s' h
    obtain ⟨hs', ht⟩ := serverCreate_some_inv h
    refine ⟨by rw [ht]; rfl, by rw [hs'], ?_⟩
    intro hwf u hu
    have hlt := hwf.2 u hu
    rw [ht]
    show u.id ≠ s.nextId
    omega
  · intro s it hc
    refine ⟨?_, rfl, ?_⟩
    · unfold applySyncItem
      rw [if_pos hc]
    · intro hwf u hu
      have hlt := hwf.2 u hu
      show u.id ≠ s.nextId
      omega

theorem server_ids_fresh_witness :
    serverWF (runServerOps 7
      [ServerOp.delete 1,
       ServerOp.create { title := "N".data, description := [], completed := false,
                         location := none, photo := none }] initServer) :=
  (server_ids_fresh 7).2.2.1
    [ServerOp.delete 1,
     ServerOp.create { title := "N".data, description := [], completed := false,
                       location := none, photo := none }] initServer (by decide)

theorem pull_merge_local_wins_witness :
    dirtyRecW ∈ pullMergeLoop 9 [remoteW1, remoteW2] [dirtyRecW, cleanRecW] ∧
    serverToLocal 9 (mkServerId 2) remoteW2 ∈
      pullMergeLoop 9 [remoteW1, remoteW2] [dirtyRecW, cleanRecW] :=
  ⟨(pull_merge_local_wins 9 [remoteW1, remoteW2] [dirtyRecW, cleanRecW]
      (by decide) (by decide)).1 dirtyRecW (by decide) (by decide),
   (pull_merge_local_wins 9 [remoteW1, remoteW2] [dirtyRecW, cleanRecW]
      (by decide) (by decide)).2.2 remoteW2 (by decide) (by decide)⟩

end PWA3
